/-
Verification of the FROST(Ed25519, SHA-512) threshold-signing core
(soatok/frost, RFC 9591).

Shallow embedding notes.
* Scalars are `ZMod scalarOrder` where `scalarOrder` is the order of the
  edwards25519 prime-order subgroup; `scalarOrder` is proved prime below via
  Lucas certificates, so the scalar type is a field, matching the scalar
  field of the curve library the source delegates to.
* The source's `Scalar`/`Element` wrapper layer (canonical 32-byte I/O,
  constant-time arithmetic delegated to filippo.io/edwards25519) is not part
  of the staged source files; it is modelled from the spec's field/group
  layer, section 4.1.  Group elements are handled through a `GroupOps`
  record (identity, addition, scalar multiplications, byte encoding); the
  prime-order subgroup is cyclic of prime order, so for the algebraic
  theorems it is instantiated with its exponent group: an element is its
  discrete logarithm (`expOps`).  For the RFC 9591 appendix E.1 test-vector
  computations it is instantiated with a concrete edwards25519 point model
  (`edwardsOps`) and the concrete SHA-512 ciphersuite.
* Go slices/errors/randomness: lists, `Except`, and explicit random draws.
  A Go nil-pointer dereference (a runtime panic, not a returned error) is
  modelled by the distinguished outcome `Err.nilPanic`.
-/
import Mathlib

set_option maxRecDepth 10000

namespace Frost

/-! ### Fast kernel-evaluable modular exponentiation

The curve library computes field inverses by Fermat exponentiation; this
fuel-based `powMod` both models that and powers the Lucas primality
certificates below. -/

/-- Square-and-multiply exponentiation modulo `p`; structural on `fuel` so the
kernel can evaluate it. -/
def powModAux (p : Nat) : Nat → Nat → Nat → Nat
  | 0, _, _ => 1 % p
  | fuel + 1, a, n =>
    if n = 0 then 1 % p
    else
      let r := powModAux p fuel (a * a % p) (n / 2)
      if n % 2 = 1 then r * a % p else r

/-- `powMod a n p = a ^ n % p`, computed in `O(log n)` modular steps. -/
def powMod (a n p : Nat) : Nat := powModAux p n a n

theorem powModAux_eq (p : Nat) :
    ∀ fuel a n, n ≤ fuel → powModAux p fuel a n = a ^ n % p := by
  intro fuel
  induction fuel with
  | zero =>
    intro a n hn
    interval_cases n
    simp [powModAux]
  | succ f ih =>
    intro a n hn
    by_cases h0 : n = 0
    · subst h0; simp [powModAux]
    · have h2 : n / 2 ≤ f := by omega
      have hr := ih (a * a % p) (n / 2) h2
      have hsq : (a * a % p) ^ (n / 2) % p = (a * a) ^ (n / 2) % p :=
        (Nat.pow_mod (a * a) (n / 2) p).symm
      have key : a ^ n = (a * a) ^ (n / 2) * a ^ (n % 2) := by
        conv_lhs => rw [show n = 2 * (n / 2) + n % 2 by omega]
        rw [pow_add, pow_mul, pow_two]
      simp only [powModAux, if_neg h0, hr, hsq]
      rcases Nat.mod_two_eq_zero_or_one n with he | ho
      · rw [if_neg (by omega : ¬ n % 2 = 1), key, he, pow_zero, mul_one]
      · rw [if_pos ho, key, ho, pow_one, Nat.mod_mul_mod]

theorem powMod_eq (a n p : Nat) : powMod a n p = a ^ n % p :=
  powModAux_eq p n a n le_rfl

/-- Order of the edwards25519 prime-order subgroup (RFC 8032's `L`), the
modulus of the source's scalar arithmetic (`Ciphersuite.Order`). -/
def scalarOrder : ℕ := 2 ^ 252 + 27742317777372353535851937790883648493

/-! ### Primality of the scalar-field order

Lucas certificates (`lucas_primality`) down a fixed factor chain make
`ZMod scalarOrder` a field, as the source's scalar arithmetic is. -/

/-- Bridge between `ZMod` powers and the kernel-evaluable `powMod`. -/
theorem powIffNat (p g n : ℕ) : ((g : ZMod p) ^ n = 1) ↔ powMod g n p = 1 % p := by
  rw [powMod_eq]
  have h1 : ((g : ZMod p)) ^ n = ((g ^ n : ℕ) : ZMod p) := by push_cast; ring
  have h2 : (1 : ZMod p) = ((1 : ℕ) : ZMod p) := by push_cast; ring
  rw [h1, h2, ZMod.natCast_eq_natCast_iff']

/-- Lucas primality from a full multiset factorization of `p - 1` whose
entries are prime, a witness `g` of full order, and kernel-checked
exponentiations. -/
theorem primeOfLucas (p g : ℕ) (facs : List ℕ)
    (hfac : p - 1 = facs.prod)
    (hprimes : ∀ r ∈ facs, r.Prime)
    (hg : powMod g (p - 1) p = 1 % p)
    (hne : ∀ r ∈ facs, ¬ powMod g ((p - 1) / r) p = 1 % p) :
    Nat.Prime p := by
  apply lucas_primality p (g : ZMod p) ((powIffNat p g (p - 1)).mpr hg)
  intro q hq hdvd
  rw [hfac] at hdvd
  obtain ⟨r, hr, hqr⟩ := (Prime.dvd_prod_iff (Nat.Prime.prime hq)).mp hdvd
  have hqeq : q = r := (Nat.prime_dvd_prime_iff_eq hq (hprimes r hr)).mp hqr
  subst hqeq
  intro hcon
  exact hne q hr ((powIffNat p g ((p - 1) / q)).mp hcon)
/-- Lucas certificate: 292386187 is prime (witness 2). -/
theorem p292386187 : Nat.Prime 292386187 :=
  primeOfLucas 292386187 2 [2, 3, 3, 3, 3, 307, 5879]
    (by decide)
    (by intro r hr; fin_cases hr <;> first | norm_num)
    (by decide)
    (by intro r hr; fin_cases hr <;> decide)

/-- Lucas certificate: 1257559732178653 is prime (witness 2). -/
theorem p1257559732178653 : Nat.Prime 1257559732178653 :=
  primeOfLucas 1257559732178653 2 [2, 2, 3, 7, 23, 531581, 1224481]
    (by decide)
    (by intro r hr; fin_cases hr <;> first | norm_num)
    (by decide)
    (by intro r hr; fin_cases hr <;> decide)

/-- Lucas certificate: 4434155615661930479 is prime (witness 17). -/
theorem p4434155615661930479 : Nat.Prime 4434155615661930479 :=
  primeOfLucas 4434155615661930479 17 [2, 41, 43, 1257559732178653]
    (by decide)
    (by intro r hr; fin_cases hr <;> first | exact p1257559732178653 | norm_num)
    (by decide)
    (by intro r hr; fin_cases hr <;> decide)

/-- Lucas certificate: 213441916511 is prime (witness 13). -/
theorem p213441916511 : Nat.Prime 213441916511 :=
  primeOfLucas 213441916511 13 [2, 5, 73, 292386187]
    (by decide)
    (by intro r hr; fin_cases hr <;> first | exact p292386187 | norm_num)
    (by decide)
    (by intro r hr; fin_cases hr <;> decide)

/-- Lucas certificate: 172054593956031949258510691 is prime (witness 2). -/
theorem p172054593956031949258510691 : Nat.Prime 172054593956031949258510691 :=
  primeOfLucas 172054593956031949258510691 2 [2, 5, 1361, 2851, 4434155615661930479]
    (by decide)
    (by intro r hr; fin_cases hr <;> first | exact p4434155615661930479 | norm_num)
    (by decide)
    (by intro r hr; fin_cases hr <;> decide)

/-- Lucas certificate: 3044861653679985063343 is prime (witness 5). -/
theorem p3044861653679985063343 : Nat.Prime 3044861653679985063343 :=
  primeOfLucas 3044861653679985063343 5 [2, 3, 11, 30703, 82163, 132667, 137849]
    (by decide)
    (by intro r hr; fin_cases hr <;> first | norm_num)
    (by decide)
    (by intro r hr; fin_cases hr <;> decide)

/-- Lucas certificate: 19757330305831588566944191468367130476339 is prime (witness 2). -/
theorem p19757330305831588566944191468367130476339 : Nat.Prime 19757330305831588566944191468367130476339 :=
  primeOfLucas 19757330305831588566944191468367130476339 2 [2, 269, 213441916511, 172054593956031949258510691]
    (by decide)
    (by intro r hr; fin_cases hr <;> first | exact p213441916511 | exact p172054593956031949258510691 | norm_num)
    (by decide)
    (by intro r hr; fin_cases hr <;> decide)

/-- Lucas certificate: 14741173 is prime (witness 2). -/
theorem p14741173 : Nat.Prime 14741173 :=
  primeOfLucas 14741173 2 [2, 2, 3, 3, 409477]
    (by decide)
    (by intro r hr; fin_cases hr <;> first | norm_num)
    (by decide)
    (by intro r hr; fin_cases hr <;> decide)

/-- Lucas certificate: 58964693 is prime (witness 2). -/
theorem p58964693 : Nat.Prime 58964693 :=
  primeOfLucas 58964693 2 [2, 2, 14741173]
    (by decide)
    (by intro r hr; fin_cases hr <;> first | exact p14741173 | norm_num)
    (by decide)
    (by intro r hr; fin_cases hr <;> decide)

/-- Lucas certificate: 198211423230930754013084525763697 is prime (witness 5). -/
theorem p198211423230930754013084525763697 : Nat.Prime 198211423230930754013084525763697 :=
  primeOfLucas 198211423230930754013084525763697 5 [2, 2, 2, 2, 3, 23, 58964693, 3044861653679985063343]
    (by decide)
    (by intro r hr; fin_cases hr <;> first | exact p3044861653679985063343 | exact p58964693 | norm_num)
    (by decide)
    (by intro r hr; fin_cases hr <;> decide)

/-- Lucas certificate: 276602624281642239937218680557139826668747 is prime (witness 2). -/
theorem p276602624281642239937218680557139826668747 : Nat.Prime 276602624281642239937218680557139826668747 :=
  primeOfLucas 276602624281642239937218680557139826668747 2 [2, 7, 19757330305831588566944191468367130476339]
    (by decide)
    (by intro r hr; fin_cases hr <;> first | exact p19757330305831588566944191468367130476339 | norm_num)
    (by decide)
    (by intro r hr; fin_cases hr <;> decide)

/-- Lucas certificate: 7237005577332262213973186563042994240857116359379907606001950938285454250989 is prime (witness 2). -/
theorem scalarOrderPrimeAux : Nat.Prime 7237005577332262213973186563042994240857116359379907606001950938285454250989 :=
  primeOfLucas 7237005577332262213973186563042994240857116359379907606001950938285454250989 2 [2, 2, 3, 11, 198211423230930754013084525763697, 276602624281642239937218680557139826668747]
    (by decide)
    (by intro r hr; fin_cases hr <;> first | exact p198211423230930754013084525763697 | exact p276602624281642239937218680557139826668747 | norm_num)
    (by decide)
    (by intro r hr; fin_cases hr <;> decide)

/-- The order of the edwards25519 prime-order subgroup is prime (Lucas chain). -/
theorem scalarOrder_prime : Nat.Prime scalarOrder := scalarOrderPrimeAux

instance : Fact (Nat.Prime scalarOrder) := ⟨scalarOrder_prime⟩

/-! ### The scalar field -/

/-- A scalar of the source: an element of ℤ/Lℤ, always reduced, as the
canonical 32-byte encoding requires. -/
abbrev Scalar : Type := ZMod scalarOrder

/-- Little-endian byte encoding of a natural number on `len` bytes. -/
def natToBytes (len n : ℕ) : List ℕ := (List.range len).map (fun i => n / 256 ^ i % 256)

/-- Reads a little-endian byte list back as a natural number. -/
def bytesToNat (l : List ℕ) : ℕ := l.foldr (fun b acc => acc * 256 + b) 0

/-- Canonical 32-byte little-endian encoding of a scalar (`Scalar.Bytes`). -/
def scalarBytes (s : Scalar) : List ℕ := natToBytes 32 s.val

/-- Field inversion by Fermat exponentiation, as the curve library's
constant-time `Scalar.Invert` computes it. -/
def scalarInvert (a : Scalar) : Scalar := ((powMod a.val (scalarOrder - 2) scalarOrder : ℕ) : Scalar)

/-! ### Ciphersuite and group abstractions

The source is written against the `Ciphersuite` interface (five hash
functions); `GroupOps` models from the spec, section 4.1, the operations the
missing element wrapper supplies: identity (`NewElement`), point addition,
`Mul(s, nil)` (base-point multiplication), `Mul(s, P)` and byte encoding. -/

/-- The `Ciphersuite` interface: H1–H3 hash to scalars, H4/H5 to byte strings. -/
structure Ciphersuite where
  H1 : List ℕ → Scalar
  H2 : List ℕ → Scalar
  H3 : List ℕ → Scalar
  H4 : List ℕ → List ℕ
  H5 : List ℕ → List ℕ

/-- Modelled from the spec: group-element operations of the missing
`Element` wrapper over the prime-order subgroup (spec section 4.1). -/
structure GroupOps (E : Type) where
  identity : E
  add : E → E → E
  mulBase : Scalar → E
  mulPt : Scalar → E → E
  bytes : E → List ℕ

/-- Every outcome of the source that is not a success: the Go error values
(strings in the source; the spec's names in comments) and `nilPanic`, which
stands for a Go nil-pointer dereference — a runtime panic, not an error the
function returns. -/
inductive Err where
  /-- `rand.Read` failed in `NonceGenerate` (spec: RngFailure). -/
  | rngFailure
  /-- "xi not in L" from `DeriveInterpolatingValue` (spec: NotAParticipant). -/
  | xiNotInL
  /-- "duplicate value in L" from `DeriveInterpolatingValue` (spec: DuplicateIdentifier). -/
  | duplicateInL
  /-- "participant not found" from `BindingFactorForParticipant`. -/
  | notFound
  /-- "group commitment not computed" from `Aggregate` (spec: MissingGroupCommitment). -/
  | noGroupCommitment
  /-- A nil-pointer dereference: the Go program panics. -/
  | nilPanic
deriving DecidableEq

/-! ### Protocol data -/

/-- A participant's secret share `(identifier, sᵢ)`. -/
structure SecretShare where
  identifier : Scalar
  scalar : Scalar
deriving DecidableEq

/-- A participant's public data `(identifier, PKᵢ)`. -/
structure Participant (E : Type) where
  identifier : Scalar
  publicKeyShare : E
deriving DecidableEq

/-- The nonce pair `(hiding d, binding e)` generated by `Commit`. -/
structure Nonce where
  hidingNonce : Scalar
  bindingNonce : Scalar
deriving DecidableEq

/-- A round-1 commitment `(identifier, D = d·G, E = e·G)`. -/
structure Commitment (E : Type) where
  identifier : Scalar
  hidingCommitment : E
  bindingCommitment : E
deriving DecidableEq

/-- A participant identifier with its binding factor ρᵢ. -/
structure BindingFactor where
  identifier : Scalar
  factor : Scalar
deriving DecidableEq

/-- A round-2 signature share `(identifier, zᵢ)`. -/
structure SignatureShare where
  identifier : Scalar
  share : Scalar
deriving DecidableEq

/-- The final signature `(R, z)`. -/
structure Signature (E : Type) where
  R : E
  z : Scalar
deriving DecidableEq

/-! ### Helpers (helpers.go) -/

/-- `NonceGenerate`: reads 32 random bytes (`none` models a CSPRNG read
failure) and returns `H3(randomBytes ‖ encode(secret))`. -/
def nonceGenerate (cs : Ciphersuite) (secret : Scalar) (draw : Option (List ℕ)) :
    Except Err Scalar :=
  match draw with
  | none => .error .rngFailure
  | some randomBytes => .ok (cs.H3 (randomBytes ++ scalarBytes secret))

/-- The duplicate scan of `DeriveInterpolatingValue` (the source's quadratic
loop finds a duplicate exactly when one exists). -/
def hasDup : List Scalar → Bool
  | [] => false
  | x :: xs => xs.contains x || hasDup xs

/-- `DeriveInterpolatingValue(L, xᵢ)`: errors when `xᵢ ∉ L` or `L` has a
duplicate, else `Π_{xⱼ ∈ L, xⱼ ≠ xᵢ} xⱼ` times the inverse of
`Π_{xⱼ ∈ L, xⱼ ≠ xᵢ} (xⱼ − xᵢ)`, exactly as the source's two
accumulators and final `Invert` compute it. -/
def deriveInterpolatingValue (L : List Scalar) (xi : Scalar) : Except Err Scalar :=
  if ¬ L.contains xi then .error .xiNotInL
  else if hasDup L then .error .duplicateInL
  else
    let others := L.filter (fun xj => xj != xi)
    let numerator := others.foldl (fun acc xj => acc * xj) 1
    let denominator := others.foldl (fun acc xj => acc * (xj - xi)) 1
    .ok (numerator * scalarInvert denominator)

/-- Strict lexicographic order on byte strings (`bytes.Compare _ _ < 0`;
identifier encodings share length 32). -/
def bytesLt : List ℕ → List ℕ → Bool
  | [], [] => false
  | [], _ :: _ => true
  | _ :: _, [] => false
  | a :: as, b :: bs => if a < b then true else if b < a then false else bytesLt as bs

/-- The comparison `sort.Slice` is given: commitments ordered by the byte
encoding of their identifiers. -/
def commLt {E : Type} (a b : Commitment E) : Bool :=
  bytesLt (scalarBytes a.identifier) (scalarBytes b.identifier)

/-- One step of insertion sort: place `c` after every commitment whose key is
not strictly greater, as Go's insertion sort (the `sort.Slice` algorithm at
these input sizes) does. -/
def insertComm {E : Type} (c : Commitment E) : List (Commitment E) → List (Commitment E)
  | [] => [c]
  | d :: ds => if commLt c d then c :: d :: ds else d :: insertComm c ds

/-- The canonical identifier-ascending sort applied (in place, in Go) by
`EncodeGroupCommitmentList` and `ParticipantsFromCommitmentList`. -/
def sortCommitments {E : Type} (l : List (Commitment E)) : List (Commitment E) :=
  l.foldl (fun acc c => insertComm c acc) []

/-- `EncodeGroupCommitmentList`: sort by identifier bytes, then concatenate
`identifier ‖ D ‖ E` per commitment. -/
def encodeGroupCommitmentList {E : Type} (G : GroupOps E) (commitments : List (Commitment E)) :
    List ℕ :=
  (sortCommitments commitments).foldl
    (fun acc c => acc ++ scalarBytes c.identifier ++ G.bytes c.hidingCommitment ++ G.bytes c.bindingCommitment) []

/-- `ParticipantsFromCommitmentList`: the identifiers, in sorted order. -/
def participantsFromCommitmentList {E : Type} (commitments : List (Commitment E)) : List Scalar :=
  (sortCommitments commitments).map (fun c => c.identifier)

/-- `BindingFactorForParticipant`: first matching identifier wins. -/
def bindingFactorForParticipant (bindingFactors : List BindingFactor) (identifier : Scalar) :
    Except Err Scalar :=
  match bindingFactors with
  | [] => .error .notFound
  | bf :: rest =>
    if bf.identifier = identifier then .ok bf.factor
    else bindingFactorForParticipant rest identifier

/-- `ComputeBindingFactors`: ρᵢ = H1(encode(PK) ‖ H4(msg) ‖ H5(encoded list)
‖ encode(identifierᵢ)).  The Go loop runs over the slice that
`EncodeGroupCommitmentList` has just sorted in place, so the factors come in
sorted order. -/
def computeBindingFactors {E : Type} (cs : Ciphersuite) (G : GroupOps E) (groupPublicKey : E)
    (commitments : List (Commitment E)) (msg : List ℕ) : List BindingFactor :=
  let rhoPre := G.bytes groupPublicKey ++ cs.H4 msg ++
    cs.H5 (encodeGroupCommitmentList G commitments)
  (sortCommitments commitments).map
    (fun c => ⟨c.identifier, cs.H1 (rhoPre ++ scalarBytes c.identifier)⟩)

/-- The loop of `ComputeGroupCommitment`: accumulate `(acc + Dᵢ) + ρᵢ·Eᵢ`,
failing when a commitment's binding factor is missing. -/
def computeGroupCommitmentAux {E : Type} (G : GroupOps E) (bfs : List BindingFactor)
    (acc : E) : List (Commitment E) → Except Err E
  | [] => .ok acc
  | c :: rest =>
    match bindingFactorForParticipant bfs c.identifier with
    | .error e => .error e
    | .ok bf => computeGroupCommitmentAux G bfs (G.add (G.add acc c.hidingCommitment) (G.mulPt bf c.bindingCommitment)) rest

/-- `ComputeGroupCommitment(C, ρ)` = Σᵢ (Dᵢ + ρᵢ·Eᵢ), starting from the
identity element. -/
def computeGroupCommitment {E : Type} (G : GroupOps E) (commitments : List (Commitment E))
    (bfs : List BindingFactor) : Except Err E :=
  computeGroupCommitmentAux G bfs G.identity commitments

/-- `ComputeChallenge(R, PK, msg)` = H2(encode(R) ‖ encode(PK) ‖ msg). -/
def computeChallenge {E : Type} (cs : Ciphersuite) (G : GroupOps E)
    (groupCommitment groupPublicKey : E) (msg : List ℕ) : Scalar :=
  cs.H2 (G.bytes groupCommitment ++ G.bytes groupPublicKey ++ msg)

/-! ### The signing state machine (frost.go) -/

/-- The per-ceremony `State`.  Go nil pointers for the optional fields are
`Option`; `myIdentifier` is kept plain because every constructed state that
reaches it has one (`frost.NewState` copies it out of the secret share). -/
structure State (E : Type) where
  ciphersuite : Ciphersuite
  participants : List (Participant E)
  groupKey : E
  message : List ℕ
  commitments : List (Commitment E)
  signatureShares : List SignatureShare
  myIdentifier : Scalar
  mySecretShare : Option SecretShare
  myNonce : Option Nonce
  myCommitment : Option (Commitment E)
  bindingFactors : List BindingFactor
  groupCommitment : Option E
  challenge : Option Scalar

/-- `NewState`: a fresh ceremony state. -/
def newState {E : Type} (cs : Ciphersuite) (participants : List (Participant E)) (groupKey : E)
    (msg : List ℕ) (myIdentifier : Scalar) (mySecretShare : Option SecretShare) : State E :=
  ⟨cs, participants, groupKey, msg, [], [], myIdentifier, mySecretShare, none, none, [], none, none⟩

/-- `State.Commit`: generate the two nonces (each from a 32-byte CSPRNG draw),
store them, and publish `(identifier, d·G, e·G)`.  On a state without a
secret share the Go code dereferences the nil `MySecretShare` and panics. -/
def commit {E : Type} (G : GroupOps E) (st : State E) (draw1 draw2 : Option (List ℕ)) :
    Except Err (Commitment E × State E) :=
  match st.mySecretShare with
  | none => .error .nilPanic
  | some share =>
    match nonceGenerate st.ciphersuite share.scalar draw1 with
    | .error e => .error e
    | .ok hidingNonce =>
      match nonceGenerate st.ciphersuite share.scalar draw2 with
      | .error e => .error e
      | .ok bindingNonce =>
        let myCommitment : Commitment E :=
          ⟨st.myIdentifier, G.mulBase hidingNonce, G.mulBase bindingNonce⟩
        .ok (myCommitment,
          { st with myNonce := some ⟨hidingNonce, bindingNonce⟩,
                    myCommitment := some myCommitment })

/-- `State.Sign`: record the commitment list (sorted in place by the first
helper that touches it), compute binding factors, group commitment and
challenge; an aggregation-only state (no share) stops there; a signer then
computes `zᵢ = dᵢ + eᵢ·ρᵢ + λᵢ·sᵢ·c`. -/
def sign {E : Type} (G : GroupOps E) (st : State E) (commitments : List (Commitment E)) :
    Except Err (Option SignatureShare × State E) :=
  let sorted := sortCommitments commitments
  let bfs := computeBindingFactors st.ciphersuite G st.groupKey commitments st.message
  match computeGroupCommitment G sorted bfs with
  | .error e => .error e
  | .ok r =>
    let c := computeChallenge st.ciphersuite G r st.groupKey st.message
    let st' := { st with commitments := sorted, bindingFactors := bfs,
                         groupCommitment := some r, challenge := some c }
    match st.mySecretShare with
    | none => .ok (none, st')
    | some share =>
      match deriveInterpolatingValue (participantsFromCommitmentList commitments)
          st.myIdentifier with
      | .error e => .error e
      | .ok lam =>
        match bindingFactorForParticipant bfs st.myIdentifier with
        | .error e => .error e
        | .ok bf =>
          match st.myNonce with
          | none => .error .nilPanic
          | some nonce =>
            let z := nonce.hidingNonce + nonce.bindingNonce * bf + lam * share.scalar * c
            .ok (some ⟨st.myIdentifier, z⟩, st')

/-- `State.Aggregate`: requires the group commitment; sums the share scalars
(and nothing else) into `Signature{R, z}`. -/
def aggregate {E : Type} (st : State E) (shares : List SignatureShare) :
    Except Err (Signature E) :=
  match st.groupCommitment with
  | none => .error .noGroupCommitment
  | some r => .ok ⟨r, shares.foldl (fun z sh => z + sh.share) 0⟩

/-! ### The discrete-logarithm model of the subgroup

The prime-order subgroup is cyclic of order `scalarOrder`; an element is its
discrete logarithm, `k·G ↦ k`, so the base-point multiple of `s` is `s`
itself, addition of points is addition of exponents, and `s·P` is `s * p`.
The byte encoding of an element is the (injective) encoding of its exponent;
the algebraic theorems quantify over the hash functions, so nothing depends
on these bytes matching the compressed-point bytes. -/

/-- The exponent (discrete-logarithm) instantiation of the group layer. -/
def expOps : GroupOps Scalar :=
  ⟨0, fun a b => a + b, fun s => s, fun s p => s * p, scalarBytes⟩

/-! ### The trusted dealer (trusteddealer package) -/

/-- `polynomialEvaluate`: Horner's method, low coefficient last. -/
def polynomialEvaluate (x : Scalar) (coeffs : List Scalar) : Scalar :=
  coeffs.foldr (fun c value => value * x + c) 0

/-- `secretShareShard`: shares `sᵢ = f(i)` for `i = 1..maxParticipants`, with
`f` the polynomial whose coefficients are the secret followed by the sampled
coefficients. -/
def secretShareShard (secret : Scalar) (coefficients : List Scalar) (maxParticipants : ℕ) :
    List SecretShare :=
  (List.range maxParticipants).map (fun j =>
    ⟨((j + 1 : ℕ) : Scalar), polynomialEvaluate ((j + 1 : ℕ) : Scalar) (secret :: coefficients)⟩)

/-- `vssCommit`: Cₖ = aₖ·G. -/
def vssCommit {E : Type} (G : GroupOps E) (coeffs : List Scalar) : List E :=
  coeffs.map G.mulBase

/-- Σ_{j < minParticipants} (x^j)·Cⱼ, the sum both `VssVerify` and
`DeriveGroupInfo` accumulate (the `big.Int` exponentiation mod the group
order is exponentiation in the scalar field). -/
def vssEval {E : Type} (G : GroupOps E) (vssCommitment : List E) (minParticipants : ℕ)
    (x : Scalar) : E :=
  (List.range minParticipants).foldl
    (fun acc j => G.add acc (G.mulPt (x ^ j) (vssCommitment.getD j G.identity))) G.identity

/-- `DeriveGroupInfo`: the group key is C₀ and PKᵢ = Σ_j (i^j)·Cⱼ for
`i = 1..maxParticipants`. -/
def deriveGroupInfo {E : Type} (G : GroupOps E) (maxParticipants minParticipants : ℕ)
    (vssCommitment : List E) : E × List (Participant E) :=
  (vssCommitment.headD G.identity,
    (List.range maxParticipants).map (fun j =>
      ⟨((j + 1 : ℕ) : Scalar),
        vssEval G vssCommitment minParticipants ((j + 1 : ℕ) : Scalar)⟩))

/-- The trusted dealer's output record. -/
structure KeygenOutput (E : Type) where
  participantPrivateKeys : List SecretShare
  participants : List (Participant E)
  groupPublicKey : E
  vssCommitment : List E

/-- `TrustedDealer.Keygen` with the sampled randomness (the group secret and
the `minParticipants - 1` further coefficients, each a uniform scalar)
passed in explicitly. -/
def keygen {E : Type} (G : GroupOps E) (secret : Scalar) (coefficients : List Scalar)
    (maxParticipants minParticipants : ℕ) : KeygenOutput E :=
  let shares := secretShareShard secret coefficients maxParticipants
  let vss := vssCommit G (secret :: coefficients)
  let info := deriveGroupInfo G maxParticipants minParticipants vss
  ⟨shares, info.2, info.1, vss⟩

/-- `VssVerify`: sᵢ·G == Σ_j (i^j)·Cⱼ. -/
def vssVerify {E : Type} [DecidableEq E] (G : GroupOps E) (share : SecretShare)
    (vssCommitment : List E) (minParticipants : ℕ) : Bool :=
  decide (G.mulBase share.scalar = vssEval G vssCommitment minParticipants share.identifier)

end Frost

namespace Frost

/-! ### Basic facts about the embedded primitives -/

instance : NeZero scalarOrder := ⟨scalarOrder_prime.ne_zero⟩

instance {ε α : Type} [DecidableEq ε] [DecidableEq α] : DecidableEq (Except ε α) := fun a b =>
  match a, b with
  | .ok x, .ok y => if h : x = y then .isTrue (by rw [h]) else .isFalse (by simp [h])
  | .error x, .error y => if h : x = y then .isTrue (by rw [h]) else .isFalse (by simp [h])
  | .ok _, .error _ => .isFalse (by simp)
  | .error _, .ok _ => .isFalse (by simp)

/-- The Fermat-exponentiation inverse is the field inverse. -/
theorem scalarInvert_eq_inv (a : Scalar) : scalarInvert a = a⁻¹ := by
  unfold scalarInvert
  rw [powMod_eq, ZMod.natCast_mod, Nat.cast_pow, ZMod.natCast_rightInverse a]
  by_cases ha : a = 0
  · subst ha
    have h3 : 3 ≤ scalarOrder := by unfold scalarOrder; norm_num
    rw [inv_zero, zero_pow (by omega : scalarOrder - 2 ≠ 0)]
  · have h2 : 2 ≤ scalarOrder := scalarOrder_prime.two_le
    have hfer : a ^ (scalarOrder - 1) = 1 := ZMod.pow_card_sub_one_eq_one ha
    refine eq_inv_of_mul_eq_one_left ?_
    calc a ^ (scalarOrder - 2) * a = a ^ (scalarOrder - 2 + 1) := (pow_succ a _).symm
    _ = 1 := by rw [show scalarOrder - 2 + 1 = scalarOrder - 1 by omega, hfer]

/-! ### The canonical sort -/

theorem bytesLt_irrefl : ∀ a : List ℕ, bytesLt a a = false := by
  intro a
  induction a with
  | nil => rfl
  | cons x xs ih => simp [bytesLt, ih]

theorem bytesLt_trans : ∀ a b c : List ℕ,
    bytesLt a b = true → bytesLt b c = true → bytesLt a c = true := by
  intro a
  induction a with
  | nil =>
    intro b c h1 h2
    cases b with
    | nil => simp [bytesLt] at h1
    | cons y bs =>
      cases c with
      | nil => simp [bytesLt] at h2
      | cons z cs => rfl
  | cons x as ih =>
    intro b c h1 h2
    cases b with
    | nil => simp [bytesLt] at h1
    | cons y bs =>
      cases c with
      | nil => simp [bytesLt] at h2
      | cons z cs =>
        simp only [bytesLt] at h1 h2 ⊢
        split_ifs at h1 h2 ⊢ <;> first | rfl | omega | (exact ih bs cs h1 h2) | simp_all

theorem bytesLt_conn : ∀ a b : List ℕ,
    bytesLt a b = false → bytesLt b a = false → a = b := by
  intro a
  induction a with
  | nil =>
    intro b h1 _
    cases b with
    | nil => rfl
    | cons y bs => simp [bytesLt] at h1
  | cons x as ih =>
    intro b h1 h2
    cases b with
    | nil => simp [bytesLt] at h2
    | cons y bs =>
      simp only [bytesLt] at h1 h2
      split_ifs at h1 h2 <;> first | omega | (rw [ih bs h1 h2]; congr 1; omega)

theorem commLt_asymm {E : Type} {a b : Commitment E} (h : commLt a b = true) :
    commLt b a = false := by
  by_contra hc
  have hba : commLt b a = true := by
    cases hh : commLt b a
    · exact absurd hh hc
    · rfl
  have := bytesLt_trans _ _ _ h hba
  unfold commLt at this
  rw [bytesLt_irrefl] at this
  exact Bool.false_ne_true this

/-- Sortedness: no later commitment's key is strictly below an earlier one's. -/
abbrev commSorted {E : Type} (l : List (Commitment E)) : Prop :=
  l.Pairwise (fun a b => commLt b a = false)

theorem insertComm_perm {E : Type} (c : Commitment E) :
    ∀ l : List (Commitment E), (insertComm c l).Perm (c :: l) := by
  intro l
  induction l with
  | nil => exact List.Perm.refl _
  | cons d ds ih =>
    simp only [insertComm]
    split_ifs
    · exact List.Perm.refl _
    · exact (ih.cons d).trans (List.Perm.swap c d ds)

theorem insertComm_sorted {E : Type} (c : Commitment E) :
    ∀ l : List (Commitment E), commSorted l → commSorted (insertComm c l) := by
  intro l
  induction l with
  | nil => intro _; simp [insertComm, commSorted]
  | cons d ds ih =>
    intro hs
    simp only [commSorted, List.pairwise_cons] at hs
    obtain ⟨hd, hds⟩ := hs
    simp only [insertComm]
    split_ifs with hlt
    · simp only [commSorted, List.pairwise_cons]
      refine ⟨?_, ?_⟩
      · intro b hb
        rcases List.mem_cons.mp hb with rfl | hb'
        · exact commLt_asymm hlt
        · by_contra hbc
          have hbc' : commLt b c = true := by
            cases hh : commLt b c
            · exact absurd hh hbc
            · rfl
          have := bytesLt_trans _ _ _ hbc' hlt
          exact Bool.false_ne_true ((hd b hb') ▸ this)
      · exact ⟨hd, hds⟩
    · simp only [commSorted, List.pairwise_cons]
      refine ⟨?_, ih hds⟩
      intro b hb
      rcases List.mem_cons.mp ((insertComm_perm c ds).mem_iff.mp hb) with rfl | hb'
      · cases hh : commLt b d
        · rfl
        · exact absurd hh hlt
      · exact hd b hb'

theorem sortAux_perm {E : Type} :
    ∀ (l acc : List (Commitment E)),
      (l.foldl (fun a c => insertComm c a) acc).Perm (acc ++ l) := by
  intro l
  induction l with
  | nil => intro acc; simp
  | cons c rest ih =>
    intro acc
    have h1 := ih (insertComm c acc)
    have h2 : (insertComm c acc ++ rest).Perm (acc ++ c :: rest) := by
      refine ((insertComm_perm c acc).append_right rest).trans ?_
      exact (List.perm_middle).symm
    exact h1.trans h2

theorem sortCommitments_perm {E : Type} (l : List (Commitment E)) :
    (sortCommitments l).Perm l :=
  sortAux_perm l []

theorem sortAux_sorted {E : Type} :
    ∀ (l acc : List (Commitment E)), commSorted acc →
      commSorted (l.foldl (fun a c => insertComm c a) acc) := by
  intro l
  induction l with
  | nil => intro acc h; exact h
  | cons c rest ih =>
    intro acc h
    exact ih (insertComm c acc) (insertComm_sorted c acc h)

theorem sortCommitments_sorted {E : Type} (l : List (Commitment E)) :
    commSorted (sortCommitments l) :=
  sortAux_sorted l [] (by simp [commSorted])

/-- Two sorted lists that are permutations of one another and whose identifier
byte keys are duplicate-free coincide. -/
theorem sorted_perm_eq {E : Type} :
    ∀ (u v : List (Commitment E)), u.Perm v → commSorted u → commSorted v →
      (u.map (fun c => scalarBytes c.identifier)).Nodup → u = v := by
  intro u
  induction u with
  | nil =>
    intro v hp _ _ _
    exact (hp.nil_eq).symm ▸ rfl
  | cons x u' ih =>
    intro v hp hsu hsv hnd
    cases v with
    | nil => exact absurd hp.symm.nil_eq (by simp)
    | cons y v' =>
      rw [List.map_cons, List.nodup_cons] at hnd
      by_cases hxy : x = y
      · subst hxy
        have hp' := hp.cons_inv
        simp only [commSorted, List.pairwise_cons] at hsu hsv
        rw [ih v' hp' hsu.2 hsv.2 hnd.2]
      · exfalso
        have hxv : x ∈ y :: v' := hp.mem_iff.mp (List.mem_cons_self x u')
        have hxv' : x ∈ v' := by
          rcases List.mem_cons.mp hxv with h | h
          · exact absurd h hxy
          · exact h
        have hyu : y ∈ x :: u' := hp.symm.mem_iff.mp (List.mem_cons_self y v')
        have hyu' : y ∈ u' := by
          rcases List.mem_cons.mp hyu with h | h
          · exact absurd h.symm hxy
          · exact h
        simp only [commSorted, List.pairwise_cons] at hsu hsv
        have h1 : commLt y x = false := hsu.1 y hyu'
        have h2 : commLt x y = false := hsv.1 x hxv'
        have hkey : scalarBytes x.identifier = scalarBytes y.identifier :=
          bytesLt_conn _ _ h2 h1
        exact hnd.1 (hkey ▸ List.mem_map_of_mem (fun c => scalarBytes c.identifier) hyu')

/-- Permutations with duplicate-free identifier keys sort identically. -/
theorem sortCommitments_eq_of_perm {E : Type} (l l' : List (Commitment E))
    (hp : l.Perm l') (hnd : (l.map (fun c => scalarBytes c.identifier)).Nodup) :
    sortCommitments l = sortCommitments l' := by
  refine sorted_perm_eq _ _ ?_ (sortCommitments_sorted l) (sortCommitments_sorted l') ?_
  · exact (sortCommitments_perm l).trans (hp.trans (sortCommitments_perm l').symm)
  · exact (((sortCommitments_perm l).map (fun c => scalarBytes c.identifier)).nodup_iff).mpr hnd

end Frost

namespace Frost

/-! ### List computation bridges -/

theorem hasDup_iff : ∀ L : List Scalar, hasDup L = true ↔ ¬ L.Nodup := by
  intro L
  induction L with
  | nil => simp [hasDup]
  | cons x xs ih =>
    simp only [hasDup, Bool.or_eq_true, ih, List.nodup_cons, List.elem_iff]
    tauto

theorem foldl_mul_eq_prod (l : List Scalar) (a : Scalar) :
    l.foldl (fun acc x => acc * x) a = a * l.prod := by
  induction l generalizing a with
  | nil => simp
  | cons x xs ih => simp [ih, mul_assoc]

theorem foldl_add_shares (l : List SignatureShare) (a : Scalar) :
    l.foldl (fun z sh => z + sh.share) a = a + (l.map (fun sh => sh.share)).sum := by
  induction l generalizing a with
  | nil => simp
  | cons x xs ih => simp [ih, add_assoc]

theorem prod_map_inv (l : List Scalar) : (l.map (fun x => x⁻¹)).prod = l.prod⁻¹ := by
  induction l with
  | nil => simp
  | cons x xs ih => simp [ih, mul_inv, mul_comm]

end Frost

namespace Frost

/-- A concrete ciphersuite instance (hashes read their input back as a
scalar; H4/H5 pass bytes through) used to instantiate the
`Ciphersuite`-generic theorems at concrete inputs. -/
def plainCS : Ciphersuite :=
  ⟨fun m => (bytesToNat m : Scalar), fun m => (bytesToNat m : Scalar),
    fun m => (bytesToNat m : Scalar), fun m => m, fun m => m⟩

/-- The interpolating value as the spec writes it:
`λᵢ = Π_{xⱼ∈L, xⱼ≠xᵢ} xⱼ · (xⱼ − xᵢ)⁻¹` over the scalar field. -/
def lamList (L : List Scalar) (xi : Scalar) : Scalar :=
  ((L.filter (fun xj => xj != xi)).map (fun xj => xj * (xj - xi)⁻¹)).prod

/-- On a duplicate-free list containing `xᵢ`, `DeriveInterpolatingValue`
computes exactly the spec's product formula. -/
theorem deriveInterpolatingValue_ok (L : List Scalar) (xi : Scalar)
    (hmem : xi ∈ L) (hnd : L.Nodup) :
    deriveInterpolatingValue L xi = .ok (lamList L xi) := by
  unfold deriveInterpolatingValue lamList
  have hc : L.contains xi = true := List.elem_iff.mpr hmem
  rw [if_neg (not_not_intro hc), if_neg (by simp [hasDup_iff, hnd])]
  have hnum : (L.filter (fun xj => xj != xi)).foldl (fun acc xj => acc * xj) 1 =
      (L.filter (fun xj => xj != xi)).prod := by
    rw [foldl_mul_eq_prod, one_mul]
  have hden : (L.filter (fun xj => xj != xi)).foldl (fun acc xj => acc * (xj - xi)) 1 =
      ((L.filter (fun xj => xj != xi)).map (fun xj => xj - xi)).prod := by
    calc (L.filter (fun xj => xj != xi)).foldl (fun acc xj => acc * (xj - xi)) 1
        = ((L.filter (fun xj => xj != xi)).map (fun xj => xj - xi)).foldl
            (fun acc x => acc * x) 1 := (List.foldl_map _ _ _ _).symm
      _ = _ := by rw [foldl_mul_eq_prod, one_mul]
  simp only [hnum, hden, scalarInvert_eq_inv, Except.ok.injEq]
  rw [List.prod_map_mul]
  have h1 : (L.filter (fun xj => xj != xi)).map (fun xj => (xj - xi)⁻¹) =
      ((L.filter (fun xj => xj != xi)).map (fun xj => xj - xi)).map (fun x => x⁻¹) :=
    (List.map_map _ _ _).symm
  rw [h1, prod_map_inv]
  congr 1
  exact congrArg List.prod (List.map_id _).symm

/-- C8: `DeriveInterpolatingValue(L, xᵢ)` fails with NotAParticipant
(`xiNotInL`) when `xᵢ ∉ L`, then with DuplicateIdentifier (`duplicateInL`)
when `L` has two equal elements, and otherwise returns
`λᵢ = Π_{xⱼ∈L, xⱼ≠xᵢ} xⱼ · (xⱼ − xᵢ)⁻¹` over the scalar field. -/
theorem c8_deriveInterpolatingValue_spec (L : List Scalar) (xi : Scalar) :
    deriveInterpolatingValue L xi =
      if xi ∈ L then
        if L.Nodup then .ok (lamList L xi)
        else .error .duplicateInL
      else .error .xiNotInL := by
  by_cases hmem : xi ∈ L
  · rw [if_pos hmem]
    by_cases hnd : L.Nodup
    · rw [if_pos hnd]
      exact deriveInterpolatingValue_ok L xi hmem hnd
    · rw [if_neg hnd]
      unfold deriveInterpolatingValue
      rw [if_neg (not_not_intro (List.elem_iff.mpr hmem)),
        if_pos (by simp [hasDup_iff, hnd])]
  · rw [if_neg hmem]
    unfold deriveInterpolatingValue
    rw [if_pos (by simpa using fun h => hmem (List.elem_iff.mp h))]

end Frost

namespace Frost

/-- C9 (amended): for commitment lists whose identifier byte keys are
duplicate-free, `EncodeGroupCommitmentList` is invariant under permutation,
and consequently `ComputeBindingFactors` returns identical (identifier, ρ)
lists for any permutation of the same commitment set. -/
theorem c9_encode_perm_invariant {E : Type} (G : GroupOps E) (cs : Ciphersuite) (pk : E)
    (msg : List ℕ) (C C' : List (Commitment E)) (hp : C.Perm C')
    (hnd : (C.map (fun c => scalarBytes c.identifier)).Nodup) :
    encodeGroupCommitmentList G C = encodeGroupCommitmentList G C' ∧
      computeBindingFactors cs G pk C msg = computeBindingFactors cs G pk C' msg := by
  have hs := sortCommitments_eq_of_perm C C' hp hnd
  constructor
  · unfold encodeGroupCommitmentList
    rw [hs]
  · unfold computeBindingFactors encodeGroupCommitmentList
    rw [hs]

/-- C9 witness: the amended invariance at a concrete two-commitment list. -/
theorem c9_encode_perm_invariant_witness :
    encodeGroupCommitmentList expOps [(⟨1, 2, 3⟩ : Commitment Scalar), ⟨2, 4, 5⟩] =
        encodeGroupCommitmentList expOps [⟨2, 4, 5⟩, ⟨1, 2, 3⟩] ∧
      computeBindingFactors plainCS expOps 7 [(⟨1, 2, 3⟩ : Commitment Scalar), ⟨2, 4, 5⟩] [9] =
        computeBindingFactors plainCS expOps 7 [⟨2, 4, 5⟩, ⟨1, 2, 3⟩] [9] :=
  c9_encode_perm_invariant expOps plainCS 7 [9] _ _ (List.Perm.swap _ _ _) (by decide)

/-- C9 counterexample: with a duplicated identifier (and different points)
the encoding is not permutation-invariant, so the claim fails as stated for
arbitrary commitment lists. -/
theorem c9_counterexample :
    ([(⟨1, 2, 3⟩ : Commitment Scalar), ⟨1, 4, 5⟩]).Perm [⟨1, 4, 5⟩, ⟨1, 2, 3⟩] ∧
      encodeGroupCommitmentList expOps [(⟨1, 2, 3⟩ : Commitment Scalar), ⟨1, 4, 5⟩] ≠
        encodeGroupCommitmentList expOps [⟨1, 4, 5⟩, ⟨1, 2, 3⟩] :=
  ⟨List.Perm.swap _ _ _, by decide⟩

/-- C10: once the group commitment is set, `Aggregate` succeeds on every
share list — empty, duplicated or foreign identifiers included — and returns
`Signature{R, z}` with `z` the sum of the input share scalars; the shares'
identifiers are never consulted. -/
theorem c10_aggregate_sums {E : Type} (st : State E) (shares : List SignatureShare) (r : E)
    (h : st.groupCommitment = some r) :
    aggregate st shares = .ok ⟨r, (shares.map (fun sh => sh.share)).sum⟩ := by
  unfold aggregate
  rw [h]
  rw [foldl_add_shares, zero_add]

/-- C10 witness: a concrete aggregation over duplicate and foreign
identifiers with the group commitment set. -/
theorem c10_aggregate_sums_witness :
    aggregate { newState plainCS [] (7 : Scalar) [] 1 none with groupCommitment := some 11 }
        [⟨1, 2⟩, ⟨1, 3⟩, ⟨99, 5⟩] = .ok ⟨11, 10⟩ :=
  (c10_aggregate_sums _ [⟨1, 2⟩, ⟨1, 3⟩, ⟨99, 5⟩] 11 rfl).trans (by decide)

end Frost

namespace Frost

/-! ### Behavior of Sign's group-commitment step -/

/-- Looking a binding factor up in a list built over the same commitments
always succeeds and returns the factor of the identifier. -/
theorem bindingFactorForParticipant_map {E : Type} (f : Scalar → Scalar) :
    ∀ (lst : List (Commitment E)) (x : Scalar),
      x ∈ lst.map (fun c => c.identifier) →
      bindingFactorForParticipant
        (lst.map (fun c => (⟨c.identifier, f c.identifier⟩ : BindingFactor))) x = .ok (f x) := by
  intro lst
  induction lst with
  | nil => intro x hx; simp at hx
  | cons c rest ih =>
    intro x hx
    simp only [List.map_cons, bindingFactorForParticipant]
    by_cases hc : c.identifier = x
    · rw [if_pos hc, hc]
    · rw [if_neg hc]
      refine ih x ?_
      rcases List.mem_cons.mp hx with h | h
      · exact absurd h.symm hc
      · exact h

theorem computeGroupCommitmentAux_ok {E : Type} (G : GroupOps E) (bfs : List BindingFactor) :
    ∀ (iter : List (Commitment E)) (acc : E),
      (∀ c ∈ iter, ∃ v, bindingFactorForParticipant bfs c.identifier = .ok v) →
      ∃ r, computeGroupCommitmentAux G bfs acc iter = .ok r := by
  intro iter
  induction iter with
  | nil => intro acc _; exact ⟨acc, rfl⟩
  | cons c rest ih =>
    intro acc hall
    obtain ⟨v, hv⟩ := hall c (List.mem_cons_self c rest)
    simp only [computeGroupCommitmentAux, hv]
    exact ih _ (fun d hd => hall d (List.mem_cons_of_mem c hd))

/-- The group commitment computed from binding factors over the same
commitment list always succeeds. -/
theorem computeGroupCommitment_map_ok {E : Type} (G : GroupOps E)
    (lst : List (Commitment E)) (f : Scalar → Scalar) :
    ∃ r, computeGroupCommitment G lst
      (lst.map (fun c => (⟨c.identifier, f c.identifier⟩ : BindingFactor))) = .ok r := by
  refine computeGroupCommitmentAux_ok G _ lst G.identity ?_
  intro c hc
  exact ⟨f c.identifier,
    bindingFactorForParticipant_map f lst c.identifier (List.mem_map_of_mem _ hc)⟩

end Frost

namespace Frost

/-- Inside `Sign`, computing the group commitment from the binding factors
derived over the same commitment list never fails. -/
theorem sign_cgc_ok {E : Type} (G : GroupOps E) (cs : Ciphersuite) (pk : E) (msg : List ℕ)
    (C : List (Commitment E)) :
    ∃ r, computeGroupCommitment G (sortCommitments C)
      (computeBindingFactors cs G pk C msg) = .ok r := by
  unfold computeBindingFactors
  exact computeGroupCommitment_map_ok G (sortCommitments C)
    (fun i => cs.H1 (G.bytes pk ++ cs.H4 msg ++
      cs.H5 (encodeGroupCommitmentList G C) ++ scalarBytes i))

/-- C5 (amended): a signer whose identifier is missing from the identifier
list of `C` gets the NotAParticipant failure (`xiNotInL`, surfaced from the
interpolation step); the code performs no own-commitment presence check. -/
theorem c5_sign_not_a_participant {E : Type} (G : GroupOps E) (st : State E)
    (C : List (Commitment E)) (sh : SecretShare)
    (hshare : st.mySecretShare = some sh)
    (hmem : st.myIdentifier ∉ participantsFromCommitmentList C) :
    sign G st C = .error .xiNotInL := by
  obtain ⟨r, hr⟩ := sign_cgc_ok G st.ciphersuite st.groupKey st.message C
  have hdiv : deriveInterpolatingValue (participantsFromCommitmentList C)
      st.myIdentifier = .error .xiNotInL := by
    unfold deriveInterpolatingValue
    rw [if_pos]
    intro hcon
    exact hmem (List.elem_iff.mp hcon)
  simp only [sign, hr, hshare, hdiv]

/-- C5 witness: a signer with identifier 5 and a commitment list over
identifiers {1, 2} fails with `xiNotInL`. -/
theorem c5_sign_not_a_participant_witness :
    sign expOps { newState plainCS [] (7 : Scalar) [] 5 (some ⟨5, 9⟩) with
        myNonce := some ⟨10, 20⟩ }
      [⟨1, 11, 12⟩, ⟨2, 13, 14⟩] = .error .xiNotInL :=
  c5_sign_not_a_participant expOps _ _ ⟨5, 9⟩ rfl (by decide)

/-- C5 counterexample: the state's own commitment (identifier 1 with
D = 100·G, E = 200·G) is absent from `C` (which carries different bytes for
identifier 1), yet `Sign` succeeds and returns a share — it does not fail
with OwnCommitmentMissing (no such check exists). -/
theorem c5_counterexample :
    (sign expOps { newState plainCS [] (7 : Scalar) [] 1 (some ⟨1, 9⟩) with
          myNonce := some ⟨10, 20⟩,
          myCommitment := some ⟨1, 100, 200⟩ }
        [⟨1, 11, 12⟩, ⟨2, 13, 14⟩]).map (fun p => p.1.isSome) = .ok true ∧
      ((⟨1, 100, 200⟩ : Commitment Scalar) ∉ ([⟨1, 11, 12⟩, ⟨2, 13, 14⟩] : List (Commitment Scalar))) := by
  constructor
  · decide
  · decide

/-- C6 (amended): `Commit` on a state without a secret share dereferences the
nil share — a panic, not a returned MissingShare error; with a share present
it fails exactly when a CSPRNG draw fails (RngFailure), and otherwise stores
nonces `d = H3(r₁ ‖ s)`, `e = H3(r₂ ‖ s)` and returns `(identifier, d·G, e·G)`. -/
theorem c6_commit_spec {E : Type} (G : GroupOps E) (st : State E)
    (draw1 draw2 : Option (List ℕ)) :
    commit G st draw1 draw2 =
      match st.mySecretShare, draw1, draw2 with
      | none, _, _ => .error Err.nilPanic
      | some _, none, _ => .error .rngFailure
      | some _, some _, none => .error .rngFailure
      | some share, some r1, some r2 =>
        .ok (⟨st.myIdentifier,
              G.mulBase (st.ciphersuite.H3 (r1 ++ scalarBytes share.scalar)),
              G.mulBase (st.ciphersuite.H3 (r2 ++ scalarBytes share.scalar))⟩,
          { st with
              myNonce := some ⟨st.ciphersuite.H3 (r1 ++ scalarBytes share.scalar),
                               st.ciphersuite.H3 (r2 ++ scalarBytes share.scalar)⟩,
              myCommitment := some ⟨st.myIdentifier,
                G.mulBase (st.ciphersuite.H3 (r1 ++ scalarBytes share.scalar)),
                G.mulBase (st.ciphersuite.H3 (r2 ++ scalarBytes share.scalar))⟩ }) := by
  rcases hs : st.mySecretShare with _ | share
  · simp only [commit, nonceGenerate, hs]
  · rcases draw1 with _ | r1
    · simp only [commit, nonceGenerate, hs]
    · rcases draw2 with _ | r2
      · simp only [commit, nonceGenerate, hs]
      · simp only [commit, nonceGenerate, hs]

/-- C6 counterexample: with both CSPRNG draws succeeding, `Commit` on a
share-less state ends in the nil-dereference panic, not a returned
MissingShare error. -/
theorem c6_counterexample :
    (commit expOps (newState plainCS [] (7 : Scalar) [] 1 none)
      (some (natToBytes 32 1)) (some (natToBytes 32 2))).map (fun p => p.1) =
      .error .nilPanic := by
  decide

/-- C4 and C7 both speak about a state that already committed: after `Sign`
returns a share, the nonce is still stored, un-zeroized. -/
theorem c4_nonce_retained :
    (sign expOps { newState plainCS [] (7 : Scalar) [] 1 (some ⟨1, 9⟩) with
          myNonce := some ⟨10, 20⟩ }
        [⟨1, 11, 12⟩, ⟨2, 13, 14⟩]).map (fun p => (p.1.isSome, p.2.myNonce)) =
      .ok (true, some ⟨10, 20⟩) ∧ ((⟨10, 20⟩ : Nonce) ≠ ⟨0, 0⟩) := by
  constructor
  · decide
  · decide

/-- C7: a second `Commit` on a state that already committed succeeds and
silently replaces the stored nonce and commitment (no rejection). -/
theorem c7_recommit_not_rejected :
    (commit expOps (newState plainCS [] (7 : Scalar) [] 1 (some ⟨1, 9⟩))
        (some (natToBytes 32 1)) (some (natToBytes 32 2))).map
        (fun p => ((commit expOps p.2 (some (natToBytes 32 3)) (some (natToBytes 32 4))).map
          (fun q => (decide (q.1 ≠ p.1), decide (q.2.myCommitment = some q.1))))) =
      .ok (.ok (true, true)) := by
  decide

end Frost

namespace Frost

/-! ### Lagrange interpolation over the scalar field

The dealer polynomial is handled through `Polynomial Scalar` to use
Mathlib's Lagrange interpolation; `toPoly` ties `polynomialEvaluate`
(Horner, as the source computes) to polynomial evaluation. -/

/-- The polynomial with coefficient list `coeffs` (low degree first). -/
noncomputable def toPoly (coeffs : List Scalar) : Polynomial Scalar :=
  coeffs.foldr (fun c q => Polynomial.C c + Polynomial.X * q) 0

theorem toPoly_eval (coeffs : List Scalar) (x : Scalar) :
    (toPoly coeffs).eval x = polynomialEvaluate x coeffs := by
  induction coeffs with
  | nil => simp [toPoly, polynomialEvaluate]
  | cons c cs ih =>
    simp only [toPoly, polynomialEvaluate, List.foldr_cons] at ih ⊢
    rw [Polynomial.eval_add, Polynomial.eval_C, Polynomial.eval_mul, Polynomial.eval_X, ih]
    ring

theorem toPoly_degree_lt (coeffs : List Scalar) :
    (toPoly coeffs).degree < (coeffs.length : WithBot ℕ) := by
  induction coeffs with
  | nil =>
    simp only [toPoly, List.foldr_nil, Polynomial.degree_zero, List.length_nil,
      Nat.cast_zero]
    exact WithBot.bot_lt_coe 0
  | cons c cs ih =>
    simp only [toPoly, List.foldr_cons, List.length_cons] at ih ⊢
    refine lt_of_le_of_lt (Polynomial.degree_add_le _ _) (max_lt ?_ ?_)
    · refine lt_of_le_of_lt Polynomial.degree_C_le ?_
      exact_mod_cast WithBot.coe_lt_coe.mpr (Nat.succ_pos cs.length)
    · refine lt_of_le_of_lt (Polynomial.degree_mul_le _ _) ?_
      rw [Polynomial.degree_X]
      have h1 : (1 : WithBot ℕ) + (cs.foldr (fun c q => Polynomial.C c + Polynomial.X * q) 0).degree
          < 1 + (cs.length : WithBot ℕ) :=
        WithBot.add_lt_add_left (by simp) ih
      refine lt_of_lt_of_le h1 (le_of_eq ?_)
      rw [Nat.cast_add, Nat.cast_one, add_comm]

/-- Mathlib's Lagrange basis evaluated at 0 is the spec's coefficient product
over the other nodes. -/
theorem eval_basis_zero (s : Finset Scalar) (x : Scalar) :
    (Lagrange.basis s id x).eval 0 = ∏ y ∈ s.erase x, (y * (y - x)⁻¹) := by
  unfold Lagrange.basis
  rw [Polynomial.eval_prod]
  refine Finset.prod_congr rfl ?_
  intro y _
  simp only [Lagrange.basisDivisor, id_eq, Polynomial.eval_mul, Polynomial.eval_C,
    Polynomial.eval_sub, Polynomial.eval_X]
  rw [zero_sub, show (y - x) = -(x - y) by ring, inv_neg]
  ring

/-- Evaluating a polynomial of degree below `#s` at 0 through its values on
the nodes of `s`. -/
theorem finset_interp_zero (s : Finset Scalar) (f : Polynomial Scalar)
    (hdeg : f.degree < (s.card : WithBot ℕ)) :
    f.eval 0 = ∑ x ∈ s, (∏ y ∈ s.erase x, (y * (y - x)⁻¹)) * f.eval x := by
  have hinj : Set.InjOn id (s : Set Scalar) := fun a _ b _ h => h
  conv_lhs => rw [Lagrange.eq_interpolate hinj hdeg]
  rw [Lagrange.interpolate_apply, Polynomial.eval_finset_sum]
  refine Finset.sum_congr rfl ?_
  intro x _
  rw [Polynomial.eval_mul, Polynomial.eval_C, eval_basis_zero]
  simp only [id_eq]
  ring

/-- The list form of the spec's interpolating value equals the finset
product over the erased node set. -/
theorem lamList_eq_finset (L : List Scalar) (hnd : L.Nodup) (x : Scalar) :
    lamList L x = ∏ y ∈ L.toFinset.erase x, (y * (y - x)⁻¹) := by
  unfold lamList
  rw [← List.prod_toFinset _ (List.Nodup.filter _ hnd)]
  rw [List.toFinset_filter]
  congr 1
  rw [← Finset.filter_ne' L.toFinset x]
  refine Finset.filter_congr ?_
  intro y _
  simp [bne_iff_ne]

/-- Σ λᵢ·f(xᵢ) over a duplicate-free node list recovers f(0) whenever the
coefficient list is no longer than the node list. -/
theorem lagrange_sum_list (L : List Scalar) (hnd : L.Nodup) (coeffs : List Scalar)
    (hlen : coeffs.length ≤ L.length) :
    (L.map (fun x => lamList L x * polynomialEvaluate x coeffs)).sum =
      polynomialEvaluate 0 coeffs := by
  have hcard : L.toFinset.card = L.length := List.toFinset_card_of_nodup hnd
  have hdeg : (toPoly coeffs).degree < (L.toFinset.card : WithBot ℕ) := by
    refine lt_of_lt_of_le (toPoly_degree_lt coeffs) ?_
    rw [hcard]
    exact_mod_cast hlen
  have hfin := finset_interp_zero L.toFinset (toPoly coeffs) hdeg
  rw [toPoly_eval] at hfin
  rw [← List.sum_toFinset _ hnd]
  refine Eq.trans (Finset.sum_congr rfl ?_) hfin.symm
  intro x _
  rw [lamList_eq_finset L hnd x, toPoly_eval]

end Frost

namespace Frost

/-! ### The discrete-logarithm instantiation, pointwise -/

theorem expOps_identity : expOps.identity = 0 := rfl

theorem expOps_add (a b : Scalar) : expOps.add a b = a + b := rfl

theorem expOps_mulBase (s : Scalar) : expOps.mulBase s = s := rfl

theorem expOps_mulPt (s p : Scalar) : expOps.mulPt s p = s * p := rfl

theorem expOps_bytes (e : Scalar) : expOps.bytes e = scalarBytes e := rfl

/-! ### Horner evaluation as a power sum -/

theorem foldl_add_map {α : Type} (l : List α) (g : α → Scalar) (a : Scalar) :
    l.foldl (fun acc j => acc + g j) a = a + (l.map g).sum := by
  induction l generalizing a with
  | nil => simp
  | cons x xs ih => simp [ih, add_assoc]

theorem sum_map_mul_left {α : Type} (l : List α) (g : α → Scalar) (k : Scalar) :
    (l.map (fun j => k * g j)).sum = k * (l.map g).sum := by
  induction l with
  | nil => simp
  | cons x xs ih => simp [ih, mul_add]

theorem polynomialEvaluate_cons (c : Scalar) (cs : List Scalar) (x : Scalar) :
    polynomialEvaluate x (c :: cs) = polynomialEvaluate x cs * x + c := rfl

theorem polynomialEvaluate_at_zero (c : Scalar) (cs : List Scalar) :
    polynomialEvaluate 0 (c :: cs) = c := by
  rw [polynomialEvaluate_cons, mul_zero, zero_add]

theorem horner_eq_rangeSum (coeffs : List Scalar) (x : Scalar) :
    polynomialEvaluate x coeffs =
      ((List.range coeffs.length).map (fun j => x ^ j * coeffs.getD j 0)).sum := by
  induction coeffs with
  | nil => simp [polynomialEvaluate]
  | cons c cs ih =>
    have hfun : (fun j => x * (x ^ j * cs.getD j 0)) =
        (fun j => x ^ (j + 1) * ((c :: cs).getD (j + 1) 0)) := by
      funext j
      rw [List.getD_cons_succ, pow_succ]
      ring
    calc polynomialEvaluate x (c :: cs) = polynomialEvaluate x cs * x + c := rfl
      _ = x * ((List.range cs.length).map (fun j => x ^ j * cs.getD j 0)).sum + c := by
          rw [ih]; ring
      _ = ((List.range cs.length).map (fun j => x * (x ^ j * cs.getD j 0))).sum + c := by
          rw [sum_map_mul_left]
      _ = ((List.range cs.length).map (fun j => x ^ (j + 1) * ((c :: cs).getD (j + 1) 0))).sum
          + c := by rw [hfun]
      _ = _ := by
          rw [List.length_cons, List.range_succ_eq_map, List.map_cons, List.sum_cons,
            List.map_map]
          simp only [Function.comp_def, List.getD_cons_zero, pow_zero, one_mul]
          ring

/-- In the exponent model, the VSS evaluation Σ (x^j)·Cⱼ over the commitment
to `coeffs` is Horner evaluation of the dealer polynomial. -/
theorem vssEval_expOps (coeffs : List Scalar) (t : ℕ) (ht : t = coeffs.length) (x : Scalar) :
    vssEval expOps (vssCommit expOps coeffs) t x = polynomialEvaluate x coeffs := by
  subst ht
  unfold vssEval vssCommit
  simp only [expOps_identity, expOps_add, expOps_mulPt, expOps_mulBase]
  rw [foldl_add_map, zero_add, horner_eq_rangeSum]
  have hid : List.map expOps.mulBase coeffs = coeffs := List.map_id' coeffs
  rw [hid]

end Frost

namespace Frost

/-- C3: every trusted-dealer output has VSS-verifying shares, public key
shares that are exactly the secret shares' base-point multiples, and any
t-subset of shares with distinct identifiers interpolates back to the group
secret a₀. -/
theorem c3_keygen_correct (secret : Scalar) (coefficients : List Scalar) (n t : ℕ)
    (ht1 : 1 ≤ t) (htn : t ≤ n) (hlen : coefficients.length = t - 1)
    (sub : List SecretShare)
    (hsubmem : ∀ sh ∈ sub, sh ∈ (keygen expOps secret coefficients n t).participantPrivateKeys)
    (hsubnd : (sub.map (fun sh => sh.identifier)).Nodup)
    (hsublen : sub.length = t) :
    (∀ sh ∈ (keygen expOps secret coefficients n t).participantPrivateKeys,
        vssVerify expOps sh (keygen expOps secret coefficients n t).vssCommitment t = true) ∧
    (keygen expOps secret coefficients n t).participants =
      (keygen expOps secret coefficients n t).participantPrivateKeys.map
        (fun sh => ⟨sh.identifier, expOps.mulBase sh.scalar⟩) ∧
    (sub.map (fun sh =>
        lamList (sub.map (fun s => s.identifier)) sh.identifier * sh.scalar)).sum = secret := by
  have hT : t = (secret :: coefficients).length := by
    rw [List.length_cons, hlen]
    omega
  have hkeys : (keygen expOps secret coefficients n t).participantPrivateKeys =
      (List.range n).map (fun j =>
        ⟨((j + 1 : ℕ) : Scalar),
          polynomialEvaluate ((j + 1 : ℕ) : Scalar) (secret :: coefficients)⟩) := rfl
  have hvss : (keygen expOps secret coefficients n t).vssCommitment =
      vssCommit expOps (secret :: coefficients) := rfl
  refine ⟨?_, ?_, ?_⟩
  · intro sh hsh
    rw [hkeys] at hsh
    obtain ⟨j, _, rfl⟩ := List.mem_map.mp hsh
    unfold vssVerify
    refine decide_eq_true ?_
    rw [hvss, vssEval_expOps (secret :: coefficients) t hT, expOps_mulBase]
  · rw [hkeys]
    show (List.range n).map (fun j =>
        (⟨((j + 1 : ℕ) : Scalar),
          vssEval expOps (vssCommit expOps (secret :: coefficients)) t
            ((j + 1 : ℕ) : Scalar)⟩ : Participant Scalar)) = _
    rw [List.map_map]
    refine List.map_congr_left ?_
    intro j _
    simp only [Function.comp_def]
    rw [vssEval_expOps (secret :: coefficients) t hT, expOps_mulBase]
  · have hscalar : ∀ sh ∈ sub,
        sh.scalar = polynomialEvaluate sh.identifier (secret :: coefficients) := by
      intro sh hs
      have := hsubmem sh hs
      rw [hkeys] at this
      obtain ⟨j, _, rfl⟩ := List.mem_map.mp this
      rfl
    have hstep : sub.map (fun sh =>
        lamList (sub.map (fun s => s.identifier)) sh.identifier * sh.scalar) =
        (sub.map (fun s => s.identifier)).map (fun x =>
          lamList (sub.map (fun s => s.identifier)) x *
            polynomialEvaluate x (secret :: coefficients)) := by
      rw [List.map_map]
      refine List.map_congr_left ?_
      intro sh hs
      simp only [Function.comp_def]
      rw [hscalar sh hs]
    rw [hstep]
    rw [lagrange_sum_list (sub.map (fun s => s.identifier)) hsubnd (secret :: coefficients)
      (by rw [List.length_map, hsublen, ← hT])]
    exact polynomialEvaluate_at_zero secret coefficients

/-- C3 witness: the dealer with secret 5, coefficient 7 (f(X) = 5 + 7X),
n = 3, t = 2, and the share subset {1, 3}. -/
theorem c3_keygen_correct_witness :
    ((∀ sh ∈ (keygen expOps (5 : Scalar) [7] 3 2).participantPrivateKeys,
        vssVerify expOps sh (keygen expOps (5 : Scalar) [7] 3 2).vssCommitment 2 = true) ∧
    (keygen expOps (5 : Scalar) [7] 3 2).participants =
      (keygen expOps (5 : Scalar) [7] 3 2).participantPrivateKeys.map
        (fun sh => ⟨sh.identifier, expOps.mulBase sh.scalar⟩) ∧
    (([⟨1, 12⟩, ⟨3, 26⟩] : List SecretShare).map (fun sh =>
        lamList (([⟨1, 12⟩, ⟨3, 26⟩] : List SecretShare).map (fun s => s.identifier))
          sh.identifier * sh.scalar)).sum = 5) :=
  c3_keygen_correct 5 [7] 3 2 (by norm_num) (by norm_num) rfl
    [⟨1, 12⟩, ⟨3, 26⟩] (by decide) (by decide) rfl

end Frost

namespace Frost

/-- The binding factor `ρᵢ` that `ComputeBindingFactors` assigns to an
identifier: H1(encode(PK) ‖ H4(msg) ‖ H5(encoded commitment list) ‖ encode(i)). -/
def rhoOf {E : Type} (cs : Ciphersuite) (G : GroupOps E) (pk : E) (msg : List ℕ)
    (C : List (Commitment E)) (i : Scalar) : Scalar :=
  cs.H1 (G.bytes pk ++ cs.H4 msg ++ cs.H5 (encodeGroupCommitmentList G C) ++ scalarBytes i)

theorem bindingFactorFor_computeBindingFactors {E : Type} (cs : Ciphersuite) (G : GroupOps E)
    (pk : E) (msg : List ℕ) (C : List (Commitment E)) (x : Scalar)
    (hx : x ∈ participantsFromCommitmentList C) :
    bindingFactorForParticipant (computeBindingFactors cs G pk C msg) x =
      .ok (rhoOf cs G pk msg C x) := by
  unfold computeBindingFactors rhoOf
  exact bindingFactorForParticipant_map
    (fun i => cs.H1 (G.bytes pk ++ cs.H4 msg ++ cs.H5 (encodeGroupCommitmentList G C) ++
      scalarBytes i)) (sortCommitments C) x hx

/-- What `Sign` returns to a signer: the commitment list is recorded sorted,
the binding factors, group commitment `R` and challenge `c` are stored, and
the share is `zᵢ = dᵢ + eᵢ·ρᵢ + λᵢ·sᵢ·c`. -/
theorem sign_signer_spec {E : Type} (G : GroupOps E) (st : State E)
    (C : List (Commitment E)) (sh : SecretShare) (nn : Nonce)
    (hshare : st.mySecretShare = some sh) (hnonce : st.myNonce = some nn)
    (hmem : st.myIdentifier ∈ participantsFromCommitmentList C)
    (hnd : (participantsFromCommitmentList C).Nodup) :
    ∃ r : E,
      computeGroupCommitment G (sortCommitments C)
        (computeBindingFactors st.ciphersuite G st.groupKey C st.message) = .ok r ∧
      sign G st C = .ok (some ⟨st.myIdentifier,
        nn.hidingNonce +
          nn.bindingNonce * rhoOf st.ciphersuite G st.groupKey st.message C st.myIdentifier +
          lamList (participantsFromCommitmentList C) st.myIdentifier * sh.scalar *
            computeChallenge st.ciphersuite G r st.groupKey st.message⟩,
        { st with commitments := sortCommitments C,
                  bindingFactors := computeBindingFactors st.ciphersuite G st.groupKey C
                    st.message,
                  groupCommitment := some r,
                  challenge := some (computeChallenge st.ciphersuite G r st.groupKey
                    st.message) }) := by
  obtain ⟨r, hr⟩ := sign_cgc_ok G st.ciphersuite st.groupKey st.message C
  refine ⟨r, hr, ?_⟩
  have hdiv := deriveInterpolatingValue_ok (participantsFromCommitmentList C)
    st.myIdentifier hmem hnd
  have hbf := bindingFactorFor_computeBindingFactors st.ciphersuite G st.groupKey
    st.message C st.myIdentifier hmem
  simp only [sign, hr, hshare, hnonce, hdiv, hbf]

end Frost

namespace Frost

/-- In the exponent model the group commitment is the sum Σ (Dᵢ + ρᵢ·Eᵢ). -/
theorem computeGroupCommitmentAux_expOps (f : Scalar → Scalar)
    (lst : List (Commitment Scalar)) :
    ∀ (iter : List (Commitment Scalar)) (acc : Scalar),
      (∀ c ∈ iter, c.identifier ∈ lst.map (fun c => c.identifier)) →
      computeGroupCommitmentAux expOps
        (lst.map (fun c => (⟨c.identifier, f c.identifier⟩ : BindingFactor))) acc iter =
      .ok (acc + (iter.map (fun c =>
        c.hidingCommitment + f c.identifier * c.bindingCommitment)).sum) := by
  intro iter
  induction iter with
  | nil => intro acc _; simp [computeGroupCommitmentAux]
  | cons c rest ih =>
    intro acc hall
    have hbf := bindingFactorForParticipant_map f lst c.identifier
      (hall c (List.mem_cons_self c rest))
    simp only [computeGroupCommitmentAux, hbf]
    rw [ih _ (fun d hd => hall d (List.mem_cons_of_mem c hd))]
    simp only [expOps_add, expOps_mulPt, List.map_cons, List.sum_cons, Except.ok.injEq]
    ring

/-- The aggregation-only path of `Sign`: no share, so no signature share is
returned, but the group commitment and challenge get recorded. -/
theorem sign_aggregator_spec {E : Type} (G : GroupOps E) (st : State E)
    (C : List (Commitment E)) (hshare : st.mySecretShare = none) :
    ∃ r : E,
      computeGroupCommitment G (sortCommitments C)
        (computeBindingFactors st.ciphersuite G st.groupKey C st.message) = .ok r ∧
      sign G st C = .ok (none,
        { st with commitments := sortCommitments C,
                  bindingFactors := computeBindingFactors st.ciphersuite G st.groupKey C
                    st.message,
                  groupCommitment := some r,
                  challenge := some (computeChallenge st.ciphersuite G r st.groupKey
                    st.message) }) := by
  obtain ⟨r, hr⟩ := sign_cgc_ok G st.ciphersuite st.groupKey st.message C
  exact ⟨r, hr, by simp only [sign, hr, hshare]⟩

/-- Error-propagating map over a list, as the usage example's receive loops
run: the first failure aborts the ceremony. -/
def mapME {α β : Type} (F : α → Except Err β) : List α → Except Err (List β)
  | [] => .ok []
  | a :: rest =>
    match F a with
    | .error e => .error e
    | .ok b =>
      match mapME F rest with
      | .error e => .error e
      | .ok bs => .ok (b :: bs)

theorem mapME_ok {α β : Type} (F : α → Except Err β) (Gf : α → β) :
    ∀ l : List α, (∀ a ∈ l, F a = .ok (Gf a)) → mapME F l = .ok (l.map Gf) := by
  intro l
  induction l with
  | nil => intro _; rfl
  | cons a rest ih =>
    intro h
    have ha := h a (List.mem_cons_self a rest)
    have hr := ih (fun b hb => h b (List.mem_cons_of_mem a hb))
    simp only [mapME, ha, hr, List.map_cons]

/-- The hiding nonce a participant derives in round 1 (`d = H3(r₁ ‖ s)`). -/
def dOf (cs : Ciphersuite) (secret : Scalar) (coefficients : List Scalar)
    (p : Scalar × List ℕ × List ℕ) : Scalar :=
  cs.H3 (p.2.1 ++ scalarBytes (polynomialEvaluate p.1 (secret :: coefficients)))

/-- The binding nonce a participant derives in round 1 (`e = H3(r₂ ‖ s)`). -/
def eOf (cs : Ciphersuite) (secret : Scalar) (coefficients : List Scalar)
    (p : Scalar × List ℕ × List ℕ) : Scalar :=
  cs.H3 (p.2.2 ++ scalarBytes (polynomialEvaluate p.1 (secret :: coefficients)))

/-- A participant's round-0 state: identifier `x`, dealer share `f(x)`. -/
def signerState0 (cs : Ciphersuite) (msg : List ℕ) (secret : Scalar)
    (coefficients : List Scalar) (p : Scalar × List ℕ × List ℕ) : State Scalar :=
  newState cs [] (expOps.mulBase secret) msg p.1
    (some ⟨p.1, polynomialEvaluate p.1 (secret :: coefficients)⟩)

/-- A full ceremony over the discrete-logarithm group model: participants
`ps` (identifier and two 32-byte CSPRNG draws) hold correct dealer shares of
the polynomial `secret :: coefficients`; each runs `Commit`, everyone signs
the same commitment list, and an aggregation-only state computes the group
commitment and aggregates all shares. -/
def runCeremony (cs : Ciphersuite) (msg : List ℕ) (secret : Scalar)
    (coefficients : List Scalar) (ps : List (Scalar × List ℕ × List ℕ)) :
    Except Err (Signature Scalar) :=
  match mapME (fun p => commit expOps (signerState0 cs msg secret coefficients p)
      (some p.2.1) (some p.2.2)) ps with
  | .error e => .error e
  | .ok committed =>
    let C := committed.map (fun q => q.1)
    match mapME (fun q =>
        match sign expOps q.2 C with
        | .error e => .error e
        | .ok (none, _) => .error .nilPanic
        | .ok (some s, _) => .ok s) committed with
    | .error e => .error e
    | .ok shares =>
      match sign expOps (newState cs [] (expOps.mulBase secret) msg 0 none) C with
      | .error e => .error e
      | .ok (_, aggState) => aggregate aggState shares

end Frost

namespace Frost

theorem sum_map_add_split {α : Type} (l : List α) (f g : α → Scalar) :
    (l.map (fun x => f x + g x)).sum = (l.map f).sum + (l.map g).sum := by
  induction l with
  | nil => simp
  | cons x xs ih => simp [ih]; ring

theorem sum_map_mul_right {α : Type} (l : List α) (g : α → Scalar) (k : Scalar) :
    (l.map (fun j => g j * k)).sum = (l.map g).sum * k := by
  induction l with
  | nil => simp
  | cons x xs ih => simp [ih]; ring

theorem mapME_map {α β γ : Type} (F : β → Except Err γ) (H : α → β) :
    ∀ l : List α, mapME F (l.map H) = mapME (fun a => F (H a)) l := by
  intro l
  induction l with
  | nil => rfl
  | cons a rest ih => simp only [List.map_cons, mapME, ih]

/-- The round-1 commitment a participant publishes: `(x, d·G, e·G)` in the
exponent model. -/
def comOf (cs : Ciphersuite) (secret : Scalar) (coefficients : List Scalar)
    (p : Scalar × List ℕ × List ℕ) : Commitment Scalar :=
  ⟨p.1, dOf cs secret coefficients p, eOf cs secret coefficients p⟩

/-- A participant's state after `Commit`. -/
def stAfterCommit (cs : Ciphersuite) (msg : List ℕ) (secret : Scalar)
    (coefficients : List Scalar) (p : Scalar × List ℕ × List ℕ) : State Scalar :=
  { signerState0 cs msg secret coefficients p with
      myNonce := some ⟨dOf cs secret coefficients p, eOf cs secret coefficients p⟩,
      myCommitment := some (comOf cs secret coefficients p) }

theorem commit_signer (cs : Ciphersuite) (msg : List ℕ) (secret : Scalar)
    (coefficients : List Scalar) (p : Scalar × List ℕ × List ℕ) :
    commit expOps (signerState0 cs msg secret coefficients p) (some p.2.1) (some p.2.2) =
      .ok (comOf cs secret coefficients p, stAfterCommit cs msg secret coefficients p) := rfl

end Frost

namespace Frost

/-- The share a participant sends in round 2 of the modelled ceremony. -/
def shareOf (cs : Ciphersuite) (msg : List ℕ) (secret : Scalar) (coefficients : List Scalar)
    (C : List (Commitment Scalar)) (r : Scalar) (p : Scalar × List ℕ × List ℕ) :
    SignatureShare :=
  ⟨p.1, dOf cs secret coefficients p +
    eOf cs secret coefficients p * rhoOf cs expOps (expOps.mulBase secret) msg C p.1 +
    lamList (participantsFromCommitmentList C) p.1 *
      polynomialEvaluate p.1 (secret :: coefficients) *
      computeChallenge cs expOps r (expOps.mulBase secret) msg⟩

/-- C1: a ceremony among participants holding correct dealer shares — each
committing and signing over the same commitment list — aggregates to a
signature with `z·G = R + c·PK` for `c = H2(encode(R) ‖ encode(PK) ‖ msg)`:
the stock Ed25519 verification equation against the group public key. -/
theorem c1_ceremony_verifies (cs : Ciphersuite) (msg : List ℕ) (secret : Scalar)
    (coefficients : List Scalar) (ps : List (Scalar × List ℕ × List ℕ))
    (hnd : (ps.map (fun p => p.1)).Nodup)
    (hlen : coefficients.length + 1 = ps.length) :
    ∃ sig : Signature Scalar,
      runCeremony cs msg secret coefficients ps = .ok sig ∧
      expOps.mulBase sig.z = expOps.add sig.R (expOps.mulPt
        (cs.H2 (expOps.bytes sig.R ++ expOps.bytes (expOps.mulBase secret) ++ msg))
        (expOps.mulBase secret)) := by
  have h1 : mapME (fun p => commit expOps (signerState0 cs msg secret coefficients p)
      (some p.2.1) (some p.2.2)) ps =
      .ok (ps.map (fun p => (comOf cs secret coefficients p,
        stAfterCommit cs msg secret coefficients p))) :=
    mapME_ok _ _ ps (fun p _ => commit_signer cs msg secret coefficients p)
  have hC : (ps.map (fun p => (comOf cs secret coefficients p,
      stAfterCommit cs msg secret coefficients p))).map (fun q => q.1) =
      ps.map (comOf cs secret coefficients) := by
    rw [List.map_map]
    rfl
  have hidsC : (ps.map (comOf cs secret coefficients)).map (fun c => c.identifier) =
      ps.map (fun p => p.1) := by
    rw [List.map_map]
    rfl
  have hperm : (participantsFromCommitmentList (ps.map (comOf cs secret coefficients))).Perm
      (ps.map (fun p => p.1)) := by
    unfold participantsFromCommitmentList
    exact ((sortCommitments_perm _).map _).trans (hidsC ▸ List.Perm.refl _)
  have hndIds : (participantsFromCommitmentList (ps.map (comOf cs secret coefficients))).Nodup :=
    hperm.nodup_iff.mpr hnd
  have hmemIds : ∀ p ∈ ps, p.1 ∈
      participantsFromCommitmentList (ps.map (comOf cs secret coefficients)) :=
    fun p hp => hperm.mem_iff.mpr (List.mem_map_of_mem _ hp)
  -- the aggregator-only Sign
  obtain ⟨r, hrAgg, hsignAgg⟩ := sign_aggregator_spec expOps
    (newState cs [] (expOps.mulBase secret) msg 0 none)
    (ps.map (comOf cs secret coefficients)) rfl
  simp only [newState] at hrAgg hsignAgg
  -- each signer's Sign
  have hsigners : ∀ p ∈ ps,
      sign expOps (stAfterCommit cs msg secret coefficients p)
        (ps.map (comOf cs secret coefficients)) =
      .ok (some (shareOf cs msg secret coefficients
          (ps.map (comOf cs secret coefficients)) r p),
        { stAfterCommit cs msg secret coefficients p with
            commitments := sortCommitments (ps.map (comOf cs secret coefficients)),
            bindingFactors := computeBindingFactors cs expOps (expOps.mulBase secret)
              (ps.map (comOf cs secret coefficients)) msg,
            groupCommitment := some r,
            challenge := some (computeChallenge cs expOps r (expOps.mulBase secret) msg) }) := by
    intro p hp
    obtain ⟨r', hr', hsign'⟩ := sign_signer_spec expOps
      (stAfterCommit cs msg secret coefficients p)
      (ps.map (comOf cs secret coefficients))
      ⟨p.1, polynomialEvaluate p.1 (secret :: coefficients)⟩
      ⟨dOf cs secret coefficients p, eOf cs secret coefficients p⟩
      rfl rfl (hmemIds p hp) hndIds
    have hreq : r' = r := by
      have h := hr'.symm.trans hrAgg
      exact Except.ok.inj h
    rw [hreq] at hsign'
    exact hsign'
  -- collect the shares
  have h2 : mapME (fun q =>
      match sign expOps q.2 (ps.map (comOf cs secret coefficients)) with
      | .error e => .error e
      | .ok (none, _) => .error Err.nilPanic
      | .ok (some s, _) => .ok s)
      (ps.map (fun p => (comOf cs secret coefficients p,
        stAfterCommit cs msg secret coefficients p))) =
      .ok (ps.map (shareOf cs msg secret coefficients
        (ps.map (comOf cs secret coefficients)) r)) := by
    rw [mapME_map]
    refine mapME_ok _ _ ps ?_
    intro p hp
    simp only [hsigners p hp]
  refine ⟨⟨r, (ps.map (fun p => (shareOf cs msg secret coefficients
    (ps.map (comOf cs secret coefficients)) r p).share)).sum⟩, ?_, ?_⟩
  · -- the ceremony computes exactly this signature
    unfold runCeremony
    rw [h1]
    simp only [hC, newState]
    rw [h2, hsignAgg]
    unfold aggregate
    simp only [foldl_add_shares, zero_add, List.map_map]
    rfl
  · -- the verification equation z = R + c·a₀ in the exponent group
    simp only [expOps_mulBase, expOps_add, expOps_mulPt, expOps_bytes]
    -- the value of R
    have hbfs : computeBindingFactors cs expOps (expOps.mulBase secret)
        (ps.map (comOf cs secret coefficients)) msg =
        (sortCommitments (ps.map (comOf cs secret coefficients))).map
          (fun c => (⟨c.identifier, rhoOf cs expOps (expOps.mulBase secret) msg
            (ps.map (comOf cs secret coefficients)) c.identifier⟩ : BindingFactor)) := rfl
    have hrval : r = ((sortCommitments (ps.map (comOf cs secret coefficients))).map
        (fun c => c.hidingCommitment + rhoOf cs expOps (expOps.mulBase secret) msg
          (ps.map (comOf cs secret coefficients)) c.identifier * c.bindingCommitment)).sum := by
      have h := hrAgg
      rw [show computeGroupCommitment expOps
          (sortCommitments (ps.map (comOf cs secret coefficients)))
          (computeBindingFactors cs expOps (expOps.mulBase secret)
            (ps.map (comOf cs secret coefficients)) msg) =
        computeGroupCommitmentAux expOps
          ((sortCommitments (ps.map (comOf cs secret coefficients))).map
            (fun c => (⟨c.identifier, rhoOf cs expOps (expOps.mulBase secret) msg
              (ps.map (comOf cs secret coefficients)) c.identifier⟩ : BindingFactor)))
          expOps.identity
          (sortCommitments (ps.map (comOf cs secret coefficients))) from by rw [← hbfs]; rfl]
        at h
      rw [computeGroupCommitmentAux_expOps _ _ _ _ (fun c hc => List.mem_map_of_mem _ hc)]
        at h
      have := Except.ok.inj h
      rw [← this, expOps_identity, zero_add]
    -- R as a sum over the participants
    have hRsum : ((sortCommitments (ps.map (comOf cs secret coefficients))).map
        (fun c => c.hidingCommitment + rhoOf cs expOps (expOps.mulBase secret) msg
          (ps.map (comOf cs secret coefficients)) c.identifier * c.bindingCommitment)).sum =
        (ps.map (fun p => dOf cs secret coefficients p +
          rhoOf cs expOps (expOps.mulBase secret) msg
            (ps.map (comOf cs secret coefficients)) p.1 * eOf cs secret coefficients p)).sum := by
      refine Eq.trans (((sortCommitments_perm _).map _).sum_eq) ?_
      rw [List.map_map]
      rfl
    -- the interpolation identity
    have hlam : (ps.map (fun p =>
        lamList (participantsFromCommitmentList (ps.map (comOf cs secret coefficients))) p.1 *
          polynomialEvaluate p.1 (secret :: coefficients))).sum = secret := by
      have hmm : ps.map (fun p =>
          lamList (participantsFromCommitmentList (ps.map (comOf cs secret coefficients))) p.1 *
            polynomialEvaluate p.1 (secret :: coefficients)) =
          (ps.map (fun p => p.1)).map (fun x =>
            lamList (participantsFromCommitmentList (ps.map (comOf cs secret coefficients))) x *
              polynomialEvaluate x (secret :: coefficients)) := by
        rw [List.map_map]
        rfl
      rw [hmm]
      refine Eq.trans ((hperm.symm.map _).sum_eq) ?_
      rw [lagrange_sum_list _ hndIds (secret :: coefficients) ?_]
      · exact polynomialEvaluate_at_zero secret coefficients
      · rw [hperm.length_eq, List.length_map, List.length_cons, hlen]
    -- R as the participants' nonce/binding sum
    have hz2 : (ps.map (fun p => dOf cs secret coefficients p +
        eOf cs secret coefficients p * rhoOf cs expOps (expOps.mulBase secret) msg
          (ps.map (comOf cs secret coefficients)) p.1)).sum = r := by
      rw [hrval, hRsum]
      refine congrArg List.sum (List.map_congr_left ?_)
      intro p _
      ring
    -- put the sum together
    simp only [shareOf]
    rw [show (ps.map (fun p => (dOf cs secret coefficients p +
        eOf cs secret coefficients p * rhoOf cs expOps (expOps.mulBase secret) msg
          (ps.map (comOf cs secret coefficients)) p.1 +
        lamList (participantsFromCommitmentList (ps.map (comOf cs secret coefficients))) p.1 *
          polynomialEvaluate p.1 (secret :: coefficients) *
          computeChallenge cs expOps r (expOps.mulBase secret) msg))).sum =
      (ps.map (fun p => dOf cs secret coefficients p +
        eOf cs secret coefficients p * rhoOf cs expOps (expOps.mulBase secret) msg
          (ps.map (comOf cs secret coefficients)) p.1)).sum +
      (ps.map (fun p =>
        lamList (participantsFromCommitmentList (ps.map (comOf cs secret coefficients))) p.1 *
          polynomialEvaluate p.1 (secret :: coefficients))).sum *
        computeChallenge cs expOps r (expOps.mulBase secret) msg from by
      rw [← sum_map_mul_right, ← sum_map_add_split]]
    rw [hlam, hz2]
    have hch : computeChallenge cs expOps r (expOps.mulBase secret) msg =
        cs.H2 (scalarBytes r ++ scalarBytes (expOps.mulBase secret) ++ msg) := rfl
    rw [hch]
    simp only [expOps_mulBase]
    ring

end Frost

namespace Frost

/-- C1 witness: a two-participant ceremony with the dealer polynomial
f(X) = 5 + 7X and concrete CSPRNG draws. -/
theorem c1_ceremony_verifies_witness :
    ∃ sig : Signature Scalar,
      runCeremony plainCS [1] 5 [7]
        [(1, natToBytes 32 1, natToBytes 32 2), (2, natToBytes 32 3, natToBytes 32 4)] =
        .ok sig ∧
      expOps.mulBase sig.z = expOps.add sig.R (expOps.mulPt
        (plainCS.H2 (expOps.bytes sig.R ++ expOps.bytes (expOps.mulBase 5) ++ [1]))
        (expOps.mulBase 5)) :=
  c1_ceremony_verifies plainCS [1] 5 [7]
    [(1, natToBytes 32 1, natToBytes 32 2), (2, natToBytes 32 3, natToBytes 32 4)]
    (by decide) rfl

end Frost

namespace Frost

def w64mask : ℕ := 18446744073709551616

def w64 (x : ℕ) : ℕ := x % w64mask

def rotr64 (x n : ℕ) : ℕ := w64 ((x >>> n) ||| (x <<< (64 - n)))

def bigSig0 (x : ℕ) : ℕ := rotr64 x 28 ^^^ rotr64 x 34 ^^^ rotr64 x 39

def bigSig1 (x : ℕ) : ℕ := rotr64 x 14 ^^^ rotr64 x 18 ^^^ rotr64 x 41

def smallSig0 (x : ℕ) : ℕ := rotr64 x 1 ^^^ rotr64 x 8 ^^^ (x >>> 7)

def smallSig1 (x : ℕ) : ℕ := rotr64 x 19 ^^^ rotr64 x 61 ^^^ (x >>> 6)

def chFn (e f g : ℕ) : ℕ := (e &&& f) ^^^ ((w64mask - 1 - e) &&& g)

def majFn (a b c : ℕ) : ℕ := (a &&& b) ^^^ (a &&& c) ^^^ (b &&& c)

def sha512K : List ℕ := [4794697086780616226, 8158064640168781261, 13096744586834688815, 16840607885511220156, 4131703408338449720, 6480981068601479193, 10538285296894168987, 12329834152419229976, 15566598209576043074, 1334009975649890238, 2608012711638119052, 6128411473006802146, 8268148722764581231, 9286055187155687089, 11230858885718282805, 13951009754708518548, 16472876342353939154, 17275323862435702243, 1135362057144423861, 2597628984639134821, 3308224258029322869, 5365058923640841347, 6679025012923562964, 8573033837759648693, 10970295158949994411, 12119686244451234320, 12683024718118986047, 13788192230050041572, 14330467153632333762, 15395433587784984357, 489312712824947311, 1452737877330783856, 2861767655752347644, 3322285676063803686, 5560940570517711597, 5996557281743188959, 7280758554555802590, 8532644243296465576, 9350256976987008742, 10552545826968843579, 11727347734174303076, 12113106623233404929, 14000437183269869457, 14369950271660146224, 15101387698204529176, 15463397548674623760, 17586052441742319658, 1182934255886127544, 1847814050463011016, 2177327727835720531, 2830643537854262169, 3796741975233480872, 4115178125766777443, 5681478168544905931, 6601373596472566643, 7507060721942968483, 8399075790359081724, 8693463985226723168, 9568029438360202098, 10144078919501101548, 10430055236837252648, 11840083180663258601, 13761210420658862357, 14299343276471374635, 14566680578165727644, 15097957966210449927, 16922976911328602910, 17689382322260857208, 500013540394364858, 748580250866718886, 1242879168328830382, 1977374033974150939, 2944078676154940804, 3659926193048069267, 4368137639120453308, 4836135668995329356, 5532061633213252278, 6448918945643986474, 6902733635092675308, 7801388544844847127]

def sha512H0 : List ℕ := [7640891576956012808, 13503953896175478587, 4354685564936845355, 11912009170470909681, 5840696475078001361, 11170449401992604703, 2270897969802886507, 6620516959819538809]

/-- Big-endian byte encoding on `len` bytes. -/
def natToBE (len n : ℕ) : List ℕ := (List.range len).map (fun i => n / 256 ^ (len - 1 - i) % 256)

def beWord (bs : List ℕ) : ℕ := bs.foldl (fun acc b => acc * 256 + b) 0

def sha512pad (msg : List ℕ) : List ℕ :=
  msg ++ [128] ++ List.replicate ((239 - msg.length % 128) % 128) 0 ++
    natToBE 16 (8 * msg.length)

def chunksAux (n : ℕ) : ℕ → List ℕ → List (List ℕ)
  | 0, _ => []
  | _ + 1, [] => []
  | fuel + 1, l => l.take n :: chunksAux n fuel (l.drop n)

def chunks (n : ℕ) (l : List ℕ) : List (List ℕ) := chunksAux n l.length l

def buildW (ws : List ℕ) : ℕ → List ℕ
  | 0 => ws
  | k + 1 =>
    let cur := buildW ws k
    let n := cur.length
    cur ++ [w64 (smallSig1 (cur.getD (n - 2) 0) + cur.getD (n - 7) 0 +
      smallSig0 (cur.getD (n - 15) 0) + cur.getD (n - 16) 0)]

def shaRound (st : List ℕ) (kw : ℕ × ℕ) : List ℕ :=
  match st with
  | [a, b, c, d, e, f, g, h] =>
    let t1 := w64 (h + bigSig1 e + chFn e f g + kw.1 + kw.2)
    let t2 := w64 (bigSig0 a + majFn a b c)
    [w64 (t1 + t2), a, b, c, w64 (d + t1), e, f, g]
  | other => other

def shaBlock (hs : List ℕ) (block : List ℕ) : List ℕ :=
  let ws0 := (List.range 16).map (fun i => beWord ((block.drop (8 * i)).take 8))
  let ws := buildW ws0 64
  let fin := (sha512K.zip ws).foldl shaRound hs
  (hs.zip fin).map (fun p => w64 (p.1 + p.2))

def sha512 (msg : List ℕ) : List ℕ :=
  let hs := (chunks 128 (sha512pad msg)).foldl shaBlock sha512H0
  hs.foldr (fun h acc => natToBE 8 h ++ acc) []


def p25519 : ℕ := 57896044618658097711785492504343953926634992332820282019728792003956564819949

def edD : ℕ := 37095705934669439343138083508754565189542113879843219016388785533085940283555

structure Pt where
  px : ℕ
  py : ℕ
  pz : ℕ
  pt : ℕ
deriving DecidableEq

def ptId : Pt := ⟨0, 1, 1, 0⟩

def subm (a b : ℕ) : ℕ := (a + (p25519 - b % p25519)) % p25519

def ptAdd (p q : Pt) : Pt :=
  let a := subm p.py p.px * subm q.py q.px % p25519
  let b := (p.py + p.px) % p25519 * ((q.py + q.px) % p25519) % p25519
  let c := p.pt * (2 * edD % p25519) % p25519 * q.pt % p25519
  let d := p.pz * 2 % p25519 * q.pz % p25519
  let e := subm b a
  let f := subm d c
  let g := (d + c) % p25519
  let h := (b + a) % p25519
  ⟨e * f % p25519, g * h % p25519, f * g % p25519, e * h % p25519⟩

def ptDouble (p : Pt) : Pt :=
  let a := p.px * p.px % p25519
  let b := p.py * p.py % p25519
  let c := 2 * (p.pz * p.pz % p25519) % p25519
  let h := (a + b) % p25519
  let e := subm h ((p.px + p.py) % p25519 * ((p.px + p.py) % p25519) % p25519)
  let g := subm a b
  let f := (c + g) % p25519
  ⟨e * f % p25519, g * h % p25519, f * g % p25519, e * h % p25519⟩

def ptMulAux : ℕ → ℕ → Pt → Pt
  | 0, _, _ => ptId
  | fuel + 1, k, q => if k = 0 then ptId else
      let r := ptMulAux fuel (k / 2) (ptDouble q)
      if k % 2 = 1 then ptAdd q r else r

def ptMul (k : ℕ) (q : Pt) : Pt := ptMulAux 256 k q

def gx : ℕ := 15112221349535400772501151409588531511454012693041857206046113283949847762202

def gy : ℕ := 46316835694926478169428394003475163141307993866256225615783033603165251855960

def ptBase : Pt := ⟨gx, gy, 1, gx * gy % p25519⟩

def ptBytes (p : Pt) : List ℕ :=
  let zi := powMod p.pz (p25519 - 2) p25519
  let x := p.px * zi % p25519
  let y := p.py * zi % p25519
  natToBytes 32 (y + x % 2 * 57896044618658097711785492504343953926634992332820282019728792003956564819968)


def p1ShareVal : ℕ := 4165959767346255637562632906329825438066066366254362888953964358346939866514
def p3ShareVal : ℕ := 1177123167146281526661137762610252291091832061073481137807083513900970920915
def p1HidingVal : ℕ := 3173943578848086132241269711736439732417409036112695930478815422073071021441
def p1BindingVal : ℕ := 543914070276652787704300682799484132148938311410077955978914875058254057905
def p3HidingVal : ℕ := 6609729688165273193597594458598904985885838672215603445695200632572097746626
def p3BindingVal : ℕ := 5922837495090851463823447548164258852946646361796740559773020311059258490148
def groupSecretVal : ℕ := 2041875278780111586026787196668114891124625339154849961526429311427197213819
def z1Bytes : List ℕ := [0, 23, 25, 171, 90, 83, 238, 26, 18, 9, 92, 208, 136, 253, 20, 151, 2, 192, 114, 12, 229, 253, 47, 41, 219, 236, 242, 75, 114, 129, 182, 3]
def z3Bytes : List ℕ := [189, 134, 18, 93, 233, 144, 172, 197, 225, 241, 55, 129, 216, 227, 44, 3, 169, 187, 212, 197, 53, 57, 187, 193, 6, 5, 139, 253, 20, 50, 96, 7]
def finalSigBytes : List ℕ := [54, 40, 38, 41, 195, 131, 187, 130, 10, 136, 183, 28, 174, 147, 125, 65, 242, 242, 173, 252, 195, 208, 46, 85, 80, 126, 47, 185, 226, 221, 60, 190, 189, 157, 43, 8, 68, 228, 154, 224, 243, 250, 147, 81, 97, 225, 65, 154, 171, 123, 71, 210, 26, 55, 235, 234, 225, 241, 125, 73, 135, 179, 22, 11]

def ctxBytes : List ℕ := [70, 82, 79, 83, 84, 45, 69, 68, 50, 53, 53, 49, 57, 45, 83, 72, 65, 53, 49, 50, 45, 118, 49]

def hashToScalar (m : List ℕ) : Scalar := ((bytesToNat m : ℕ) : Scalar)

/-- The concrete FROST(Ed25519, SHA-512) ciphersuite. -/
def edCS : Ciphersuite :=
  ⟨fun m => hashToScalar (sha512 (ctxBytes ++ [114, 104, 111] ++ m)),
   fun m => hashToScalar (sha512 m),
   fun m => hashToScalar (sha512 (ctxBytes ++ [110, 111, 110, 99, 101] ++ m)),
   fun m => sha512 (ctxBytes ++ [109, 115, 103] ++ m),
   fun m => sha512 (ctxBytes ++ [99, 111, 109] ++ m)⟩

/-- The concrete edwards25519 group layer. -/
def edwardsOps : GroupOps Pt :=
  ⟨ptId, ptAdd, fun s => ptMul s.val ptBase, fun s q => ptMul s.val q, ptBytes⟩

def msgE1 : List ℕ := [116, 101, 115, 116]

def pkE1 : Pt := ptMul groupSecretVal ptBase

def comsE1 : List (Commitment Pt) :=
  [⟨1, ptMul p1HidingVal ptBase, ptMul p1BindingVal ptBase⟩,
   ⟨3, ptMul p3HidingVal ptBase, ptMul p3BindingVal ptBase⟩]

def state1E1 : State Pt :=
  { newState edCS [] pkE1 msgE1 1 (some ⟨1, (p1ShareVal : Scalar)⟩) with
      myNonce := some ⟨(p1HidingVal : Scalar), (p1BindingVal : Scalar)⟩ }

def state3E1 : State Pt :=
  { newState edCS [] pkE1 msgE1 3 (some ⟨3, (p3ShareVal : Scalar)⟩) with
      myNonce := some ⟨(p3HidingVal : Scalar), (p3BindingVal : Scalar)⟩ }

theorem z1CheckAux : (sign edwardsOps state1E1 comsE1).map
    (fun p => p.1.map (fun q => scalarBytes q.share)) = .ok (some z1Bytes) := by decide

theorem z3CheckAux : (sign edwardsOps state3E1 comsE1).map
    (fun p => p.1.map (fun q => scalarBytes q.share)) = .ok (some z3Bytes) := by decide

/-- C2: for every signer state holding nonce (d, e) and secret share s whose
identifier occurs in a duplicate-free commitment list C, `Sign` returns
`(identifier, z)` with `z = d + ρ·e + λ·s·c` — ρ the binding factor
`ComputeBindingFactors` assigns the identifier, λ the interpolating value
over the sorted identifier list of C, and c the challenge; and on the RFC
9591 appendix E.1 inputs (the concrete SHA-512 ciphersuite and edwards25519
group) the shares are the literal z₁ and z₃ of the appendix. -/
theorem c2_sign_share_formula :
    (∀ (E : Type) (G : GroupOps E) (st : State E) (C : List (Commitment E))
        (sh : SecretShare) (nn : Nonce),
      st.mySecretShare = some sh → st.myNonce = some nn →
      st.myIdentifier ∈ participantsFromCommitmentList C →
      (participantsFromCommitmentList C).Nodup →
      ∃ (rho lam : Scalar) (r : E) (st' : State E),
        bindingFactorForParticipant
          (computeBindingFactors st.ciphersuite G st.groupKey C st.message)
          st.myIdentifier = .ok rho ∧
        deriveInterpolatingValue (participantsFromCommitmentList C) st.myIdentifier =
          .ok lam ∧
        computeGroupCommitment G (sortCommitments C)
          (computeBindingFactors st.ciphersuite G st.groupKey C st.message) = .ok r ∧
        sign G st C = .ok (some ⟨st.myIdentifier,
          nn.hidingNonce + nn.bindingNonce * rho + lam * sh.scalar *
            computeChallenge st.ciphersuite G r st.groupKey st.message⟩, st')) ∧
    (sign edwardsOps state1E1 comsE1).map
      (fun p => p.1.map (fun q => scalarBytes q.share)) = .ok (some z1Bytes) ∧
    (sign edwardsOps state3E1 comsE1).map
      (fun p => p.1.map (fun q => scalarBytes q.share)) = .ok (some z3Bytes) := by
  refine ⟨?_, z1CheckAux, z3CheckAux⟩
  intro E G st C sh nn hshare hnonce hmem hnd
  obtain ⟨r, hr, hsign⟩ := sign_signer_spec G st C sh nn hshare hnonce hmem hnd
  exact ⟨rhoOf st.ciphersuite G st.groupKey st.message C st.myIdentifier,
    lamList (participantsFromCommitmentList C) st.myIdentifier, r, _,
    bindingFactorFor_computeBindingFactors st.ciphersuite G st.groupKey st.message C
      st.myIdentifier hmem,
    deriveInterpolatingValue_ok (participantsFromCommitmentList C) st.myIdentifier hmem hnd,
    hr, hsign⟩

end Frost
